/-
  Verification development for the ustCusipPanel repository
  (src/ustCusipPanel.py).

  The development shallowly embeds the two core components of the program:

  * `_classifyTenor` (src lines 166-292): tenor classification of raw
    auction records, with the unscheduled-reopening override;
  * `_createCusipPanel` (src lines 448-645): expansion of classified
    records into a dense per-cusip daily panel with fills, cumulative
    issuance, vintage ranking, weekend filtering and the final sort.

  Modelling conventions:
  - dates are day numbers (Nat, days since 1970-01-01, a Thursday);
    `weekday d = (d + 3) % 7 + 1` reproduces polars `dt.weekday()`
    (Monday = 1 .. Sunday = 7);
  - currency amounts (`total_accepted`, `amountIssued`, `totalIssued`)
    and interest rates are integers (the claims under study are
    order/conservation properties of the amounts, not float rounding);
  - nullable columns are `Option` fields; the upstream "null" string
    sentinels are already normalized away, as in `_loadOrDownloadData`
    (src lines 355-398), which runs before both core components;
  - the reference date `today` is an explicit argument of the panel
    builder; it models the value of the `date.today()` call executed
    inside `_createCusipPanel` (src line 484);
  - `pl.concat(allCusipDates)` (src line 505) raises
    `ValueError("cannot concat empty list")` when there is no cusip at
    all, so the panel builder returns `Except String (List Row)` and
    errors exactly in that case;
  - polars sorts are not stable; where a tie order is unobservable in
    the claims we fix the deterministic resolution given by insertion
    sort over the same keys.
-/
import Mathlib

set_option maxHeartbeats 1000000

/-! ### Generic list utilities -/

/-- Insertion step of a stable insertion sort with a Bool comparator. -/
def insertLe {α : Type} (le : α → α → Bool) (a : α) : List α → List α
  | [] => [a]
  | b :: l => if le a b then a :: b :: l else b :: insertLe le a l

/-- Stable insertion sort; models a polars `sort` call with the given keys. -/
def sortBy {α : Type} (le : α → α → Bool) (l : List α) : List α :=
  l.foldr (insertLe le) []

/-- Minimum of a list of naturals, `none` on the empty list;
models a polars `min` aggregation over a non-null column. -/
def natMin? : List Nat → Option Nat
  | [] => none
  | a :: l =>
    match natMin? l with
    | none => some a
    | some m => some (min a m)

/-- Inclusive day range, empty when the start exceeds the end;
models `pl.date_range(start, end, interval="1d")` (src lines 489-494). -/
def natRangeIncl (s e : Nat) : List Nat :=
  (List.range (e + 1 - s)).map (s + ·)

/-- Deduplication keeping first occurrences, with an accumulator of
already-seen keys.  Models the set of per-cusip groups produced by
`group_by("cusip")` (src line 477): one group per distinct cusip. -/
def uniqAux (seen : List String) : List String → List String
  | [] => []
  | c :: l => if c ∈ seen then uniqAux seen l else c :: uniqAux (c :: seen) l

/-- First-of-a-pair option fill: the value if present, else the fallback. -/
def oFill {α : Type} (a b : Option α) : Option α :=
  match a with
  | some v => some v
  | none => b

/-! ### Data model -/

/-- A raw auction record as handed to `_classifyTenor`: one row per
security per auction event, dates parsed and "null" sentinels already
normalized to absence (src lines 355-398).  `reopening` is the Boolean
reading of the API's Yes/No column. -/
structure AuctionRecord where
  cusip : String
  security_type : String
  issue_date : Nat
  original_issue_date : Option Nat
  maturity_date : Nat
  int_rate : Option Int
  total_accepted : Option Int
  reopening : Bool
  inflation_index_security : Bool
  floating_rate : Bool
  announcemt_date : Nat
  announcemtd_cusip : Option String
  auction_date : Nat
  deriving DecidableEq, Repr

/-- A classified auction record: the input of `_createCusipPanel`,
i.e. an `AuctionRecord` enriched by `_classifyTenor` and by the
`issuanceType` relabelling (src lines 400-424). -/
structure CRecord where
  cusip : String
  security_type : String
  issue_date : Nat
  maturity_date : Nat
  int_rate : Option Int
  total_accepted : Option Int
  issuanceType : Option String
  tenor : Option Int
  unscheduledReopeningDate : Option Nat
  inflation_index_security : Bool
  floating_rate : Bool
  announcemt_date : Nat
  auction_date : Nat
  deriving DecidableEq, Repr

/-- One panel row.  Fields track the columns of the joined frame in
`_createCusipPanel`; auction-derived columns are nullable because the
calendar left-join leaves unmatched slots null (src lines 548-552).
`totalIssued` and `vintage` are filled by later pipeline stages. -/
structure Row where
  cusip : String
  date : Nat
  amountIssued : Option Int
  issuanceType : Option String
  tenor : Option Int
  coupon : Option Int
  maturityDate : Option Nat
  announcementDate : Option Nat
  auctionDate : Option Nat
  unscheduledReopeningDate : Option Nat
  firstIssueDate : Option Nat
  TIPS : Option Bool
  floatingRate : Option Bool
  securityType : Option String
  totalIssued : Option Int := none
  vintage : Option Int := none
  deriving DecidableEq, Repr

/-! ### Tenor classifier (src lines 166-292) -/

/-- The record of a group with the smallest `issue_date` (first record
of the group after `df.sort(["cusip", "issue_date"])`, src lines
190-196); keeps the earliest-positioned record on ties. -/
def earliestIn : List AuctionRecord → Option AuctionRecord
  | [] => none
  | r :: l =>
    some (match earliestIn l with
          | none => r
          | some e => if r.issue_date ≤ e.issue_date then r else e)

/-- The unscheduled-reopening override condition (src lines 210-213):
non-null `announcemtd_cusip` and `reopening == "Yes"`.  (The literal
comparison `!= "null"` in the source runs after the null-sentinel
normalization, so it is exactly a non-null test.) -/
def overrideCond (r : AuctionRecord) : Bool :=
  r.announcemtd_cusip.isSome && r.reopening

/-- `termToMaturityDays` of a record (src lines 201-219): the
group-level `earliestMaturityDate - earliestIssueDate`, overridden to
`earliestMaturityDate - issue_date` for unscheduled reopenings. -/
def termDaysOf (rs : List AuctionRecord) (r : AuctionRecord) : Int :=
  match earliestIn (rs.filter (fun x => x.cusip == r.cusip)) with
  | none => 0
  | some e =>
    if overrideCond r then (e.maturity_date : Int) - (r.issue_date : Int)
    else (e.maturity_date : Int) - (e.issue_date : Int)

/-- `unscheduledReopeningDate` of a record (src lines 221-228). -/
def unschedOf (r : AuctionRecord) : Option Nat :=
  if overrideCond r then some r.issue_date else none

/-- The 17 tenor bands of the `when` chain (src lines 232-287), in
source order, as `(lo, hi, tenor)` with the day bounds scaled by 4 so
that the `365.25`-based note/bond bounds are exact integers:
a term `t` lies in band `(lo, hi, v)` iff `lo ≤ 4*t ∧ 4*t ≤ hi`.
Bills: [6,8], [13,15], [26,30], [53,59], [86,96], [114,124],
[149,159], [176,188], [357,371] weeks 1,2,4,8,13,17,22,26,52;
notes/bonds: n*365.25 with tolerances 93,93,93,180,180,240,540,720
days for n = 2,3,4,5,7,10,20,30. -/
def bandQuads : List (Int × Int × Int) :=
  [ (24, 32, 1), (52, 60, 2), (104, 120, 4), (212, 236, 8),
    (344, 384, 13), (456, 496, 17), (596, 636, 22), (704, 752, 26),
    (1428, 1484, 52),
    (2550, 3294, 2), (4011, 4755, 3), (5472, 6216, 4),
    (6585, 8025, 5), (9507, 10947, 7), (13650, 15570, 10),
    (27060, 31380, 20), (40950, 46710, 30) ]

/-- Membership of a term-to-maturity value (in days) in one band. -/
def bandMem (b : Int × Int × Int) (t : Int) : Prop :=
  b.1 ≤ 4 * t ∧ 4 * t ≤ b.2.1

/-- The tenor assigned by the `when` chain (src lines 232-287): the
value of the first matching band, `null` when no band matches. -/
def tenorOf (t : Int) : Option Int :=
  bandQuads.findSome? fun b =>
    if b.1 ≤ 4 * t ∧ 4 * t ≤ b.2.1 then some b.2.2 else none

/-- `_classifyTenor` plus the `issuanceType` relabelling of
`_loadOrDownloadData` (src lines 166-292 and 416-424): every record
gets its tenor, its `unscheduledReopeningDate`, and
Opening/Re-opening in place of the reopening flag. -/
def classifyTenor (rs : List AuctionRecord) : List CRecord :=
  rs.map fun r =>
    { cusip := r.cusip
      security_type := r.security_type
      issue_date := r.issue_date
      maturity_date := r.maturity_date
      int_rate := r.int_rate
      total_accepted := r.total_accepted
      issuanceType := some (if r.reopening then "Re-opening" else "Opening")
      tenor := tenorOf (termDaysOf rs r)
      unscheduledReopeningDate := unschedOf r
      inflation_index_security := r.inflation_index_security
      floating_rate := r.floating_rate
      announcemt_date := r.announcemt_date
      auction_date := r.auction_date }

/-! ### Panel builder (src lines 448-645) -/

/-- polars `dt.weekday()`: Monday = 1 .. Sunday = 7
(day 0 = 1970-01-01 was a Thursday). -/
def weekday (d : Nat) : Nat := (d + 3) % 7 + 1

/-- `firstIssueDate` of a cusip: `pl.col("issue_date").min().over("cusip")`
(src lines 471-473). -/
def minIssue (rs : List CRecord) (c : String) : Option Nat :=
  natMin? ((rs.filter (fun r => r.cusip == c)).map (·.issue_date))

/-- Calendar start of a cusip: `pl.col("announcemt_date").min()`
per group (src line 478). -/
def minAnnounce (rs : List CRecord) (c : String) : Option Nat :=
  natMin? ((rs.filter (fun r => r.cusip == c)).map (·.announcemt_date))

/-- Calendar end source of a cusip: `pl.col("maturity_date").first()`
per group (src line 479); the frame reaches `_createCusipPanel` sorted
by (cusip, issue_date), so this is the maturity of the record with the
least issue date (earliest listed on ties). -/
def headMaturity (rs : List CRecord) (c : String) : Option Nat :=
  ((sortBy (fun a b =>
      decide (a.issue_date ≤ b.issue_date))
      (rs.filter (fun r => r.cusip == c))).head?).map (·.maturity_date)

/-- The distinct cusips, i.e. the groups of `group_by("cusip")`
(src line 477). -/
def cusips (rs : List CRecord) : List String :=
  uniqAux [] (rs.map (·.cusip))

/-- The complete daily calendar of one cusip: every day from the
first announcement to `min(maturity, today)` (src lines 486-502). -/
def calendarFor (today : Nat) (rs : List CRecord) (c : String) : List Nat :=
  match minAnnounce rs c, headMaturity rs c with
  | some s, some e => natRangeIncl s (min e today)
  | _, _ => []

/-- The `auctionData` selection (src lines 508-523): one joinable row
per record, keyed on `(cusip, issue_date)`, carrying the per-cusip
`firstIssueDate`. -/
def toRow (rs : List CRecord) (r : CRecord) : Row :=
  { cusip := r.cusip
    date := r.issue_date
    amountIssued := r.total_accepted
    issuanceType := r.issuanceType
    tenor := r.tenor
    coupon := r.int_rate
    maturityDate := some r.maturity_date
    announcementDate := some r.announcemt_date
    auctionDate := some r.auction_date
    unscheduledReopeningDate := r.unscheduledReopeningDate
    firstIssueDate := minIssue rs r.cusip
    TIPS := some r.inflation_index_security
    floatingRate := some r.floating_rate
    securityType := some r.security_type }

/-- The rows of `auctionData` (src lines 508-523). -/
def auctionRows (rs : List CRecord) : List Row :=
  rs.map (toRow rs)

/-- `futureDated` (src line 527): joinable rows dated after `today`. -/
def futureRows (today : Nat) (ad : List Row) : List Row :=
  ad.filter (fun r => decide (today < r.date))

/-- `cusipsWithToday` (src line 529): cusips that already have a row
dated exactly `today`. -/
def todayCusips (today : Nat) (ad : List Row) : List String :=
  (ad.filter (fun r => r.date == today)).map (fun r => r.cusip)

/-- `futureWithoutToday` (src line 532): the future-dated rows of
cusips with no `today` row (the anti-join). -/
def futureNoToday (today : Nat) (ad : List Row) : List Row :=
  (futureRows today ad).filter
    (fun r => !((todayCusips today ad).contains r.cusip))

/-- Re-dating of one future row to `today` (src lines 539-544). -/
def retimeRow (today : Nat) (r : Row) : Row :=
  { r with date := today
           issuanceType := none
           unscheduledReopeningDate := none
           amountIssued := some 0 }

/-- Future-dated resolution (src lines 525-545): records dated after
`today` are removed from the joinable rows; those whose cusip has no
row dated exactly `today` are re-dated to `today` with zero
`amountIssued`, null `issuanceType` and null
`unscheduledReopeningDate`, and appended back. -/
def resolveFutureDated (today : Nat) (ad : List Row) : List Row :=
  if (futureRows today ad).isEmpty then ad
  else
    if (futureNoToday today ad).isEmpty then
      ad.filter (fun r => decide (r.date ≤ today))
    else
      ad.filter (fun r => decide (r.date ≤ today)) ++
        (futureNoToday today ad).map (retimeRow today)

/-- An unmatched calendar slot after the left join (src lines 548-552):
all auction-derived columns null. -/
def emptyRow (c : String) (d : Nat) : Row :=
  { cusip := c
    date := d
    amountIssued := none
    issuanceType := none
    tenor := none
    coupon := none
    maturityDate := none
    announcementDate := none
    auctionDate := none
    unscheduledReopeningDate := none
    firstIssueDate := none
    TIPS := none
    floatingRate := none
    securityType := none }

/-- The join key of the calendar left join (src lines 548-552):
`(cusip, date)` equality as a Bool predicate. -/
def keyB (c : String) (d : Nat) (x : Row) : Bool :=
  x.cusip == c && x.date == d

/-- The left join of one cusip's calendar against the joinable rows
(src lines 548-555): each calendar day keeps every matching auction
row, or a single all-null row when nothing matches; the result is in
(cusip, date)-sorted order as after the sort on src line 555. -/
def joinRows (today : Nat) (rs : List CRecord) (ad : List Row) (c : String) :
    List Row :=
  (calendarFor today rs c).flatMap fun d =>
    if (ad.filter (keyB c d)).isEmpty then [emptyRow c d]
    else ad.filter (keyB c d)

/-- Fill state: the last (respectively, for the backward pass, next)
known value of each filled column. -/
structure FillSt where
  tenor : Option Int := none
  coupon : Option Int := none
  maturityDate : Option Nat := none
  announcementDate : Option Nat := none
  auctionDate : Option Nat := none
  unscheduledReopeningDate : Option Nat := none
  firstIssueDate : Option Nat := none
  TIPS : Option Bool := none
  floatingRate : Option Bool := none
  securityType : Option String := none
  deriving Repr

/-- One forward-fill step over the ten filled columns
(src lines 557-569); `unscheduledReopeningDate` is included. -/
def ffillStep (st : FillSt) (x : Row) : FillSt × Row :=
  let t := oFill x.tenor st.tenor
  let cp := oFill x.coupon st.coupon
  let m := oFill x.maturityDate st.maturityDate
  let an := oFill x.announcementDate st.announcementDate
  let au := oFill x.auctionDate st.auctionDate
  let u := oFill x.unscheduledReopeningDate st.unscheduledReopeningDate
  let f := oFill x.firstIssueDate st.firstIssueDate
  let ti := oFill x.TIPS st.TIPS
  let fl := oFill x.floatingRate st.floatingRate
  let s := oFill x.securityType st.securityType
  ({ tenor := t, coupon := cp, maturityDate := m, announcementDate := an,
     auctionDate := au, unscheduledReopeningDate := u, firstIssueDate := f,
     TIPS := ti, floatingRate := fl, securityType := s },
   { x with tenor := t, coupon := cp, maturityDate := m,
            announcementDate := an, auctionDate := au,
            unscheduledReopeningDate := u, firstIssueDate := f,
            TIPS := ti, floatingRate := fl, securityType := s })

/-- Forward fill over one cusip's rows (src lines 557-569). -/
def ffill (st : FillSt) : List Row → List Row
  | [] => []
  | x :: l =>
    let p := ffillStep st x
    p.2 :: ffill p.1 l

/-- One backward-fill step over the nine backward-filled columns
(src lines 571-582); `unscheduledReopeningDate` is forward-fill only. -/
def bfillStep (st : FillSt) (x : Row) : FillSt × Row :=
  let t := oFill x.tenor st.tenor
  let cp := oFill x.coupon st.coupon
  let m := oFill x.maturityDate st.maturityDate
  let an := oFill x.announcementDate st.announcementDate
  let au := oFill x.auctionDate st.auctionDate
  let f := oFill x.firstIssueDate st.firstIssueDate
  let ti := oFill x.TIPS st.TIPS
  let fl := oFill x.floatingRate st.floatingRate
  let s := oFill x.securityType st.securityType
  ({ tenor := t, coupon := cp, maturityDate := m, announcementDate := an,
     auctionDate := au, firstIssueDate := f,
     TIPS := ti, floatingRate := fl, securityType := s },
   { x with tenor := t, coupon := cp, maturityDate := m,
            announcementDate := an, auctionDate := au, firstIssueDate := f,
            TIPS := ti, floatingRate := fl, securityType := s })

/-- Backward fill, processing the list from its right end
(src lines 571-582). -/
def bfillAux : List Row → FillSt × List Row
  | [] => ({}, [])
  | x :: l =>
    let p := bfillAux l
    let q := bfillStep p.1 x
    (q.1, q.2 :: p.2)

/-- Backward fill over one cusip's rows (src lines 571-582). -/
def bfill (l : List Row) : List Row := (bfillAux l).2

/-- The `date < firstIssueDate` test of src line 586; a null
`firstIssueDate` makes the `when` condition null, hence falsy. -/
def beforeFirstIssue (x : Row) : Bool :=
  match x.firstIssueDate with
  | some f => decide (x.date < f)
  | none => false

/-- `amountIssued` normalization (src lines 584-590): zero before the
first issue date, otherwise the join result with nulls replaced by 0. -/
def fixAmount (x : Row) : Row :=
  { x with amountIssued :=
      if beforeFirstIssue x then some 0
      else some (x.amountIssued.getD 0) }

/-- Ascending comparison of nullable integers, nulls first. -/
def ltOptInt (a b : Option Int) : Bool :=
  match a, b with
  | none, none => false
  | none, some _ => true
  | some _, none => false
  | some x, some y => decide (x < y)

/-- Descending comparison (as a `le`) of nullable day numbers,
nulls first. -/
def leOptNatDesc (a b : Option Nat) : Bool :=
  match a, b with
  | none, _ => true
  | some _, none => false
  | some x, some y => decide (y ≤ x)

/-- The within-cusip part of the sort before the cumulative sum
(src lines 593-596): date ascending, then tenor ascending, then
firstIssueDate descending. -/
def leCum (x y : Row) : Bool :=
  if x.date = y.date then
    if x.tenor = y.tenor then leOptNatDesc x.firstIssueDate y.firstIssueDate
    else ltOptInt x.tenor y.tenor
  else decide (x.date < y.date)

/-- Cumulative issuance (src lines 597-599):
`pl.col("amountIssued").cum_sum().over("cusip")`; a null amount leaves
a null running total and does not advance the accumulator. -/
def cumSum (acc : Int) : List Row → List Row
  | [] => []
  | x :: l =>
    match x.amountIssued with
    | some v => { x with totalIssued := some (acc + v) } :: cumSum (acc + v) l
    | none => { x with totalIssued := none } :: cumSum acc l

/-- All pipeline stages scoped to one cusip (`.over("cusip")`):
join, forward fill, backward fill, amount normalization, the
within-cusip sort of src line 593, and the cumulative sum. -/
def cusipBlock (today : Nat) (rs : List CRecord) (ad : List Row)
    (c : String) : List Row :=
  cumSum 0 (sortBy leCum
    ((bfill (ffill {} (joinRows today rs ad c))).map fixAmount))

/-- The joined, filled and accumulated frame before vintage ranking
(src lines 448-599), one block of rows per distinct cusip. -/
def prePanel (today : Nat) (rs : List CRecord) : List Row :=
  let ad := resolveFutureDated today (auctionRows rs)
  (cusips rs).flatMap (cusipBlock today rs ad)

/-- The vintage peer-group key (src line 606):
(date, securityType, TIPS, floatingRate, tenor). -/
def gkey (x : Row) :
    Nat × Option String × Option Bool × Option Bool × Option Int :=
  (x.date, x.securityType, x.TIPS, x.floatingRate, x.tenor)

/-- The non-null `firstIssueDate` values of a row's peer group. -/
def groupFids (P : List Row) (x : Row) : List Nat :=
  (P.filter (fun y => decide (gkey y = gkey x))).filterMap (·.firstIssueDate)

/-- Number of distinct values above `f` in a list: the 0-based dense
descending rank of `f` (src lines 603-609). -/
def denseAbove (l : List Nat) (f : Nat) : Nat :=
  ((l.filter (fun g => decide (f < g))).dedup).length

/-- Whether a row's peer group contains a when-issued row, i.e. a row
dated before its own `firstIssueDate` (src lines 612-616); null
comparisons count as false, as under polars `any()`. -/
def hasWhenIssued (P : List Row) (x : Row) : Bool :=
  (P.filter (fun y => decide (gkey y = gkey x))).any fun y =>
    match y.firstIssueDate with
    | some f => decide (y.date < f)
    | none => false

/-- Vintage assignment for one row (src lines 601-622): 0-based dense
rank of `firstIssueDate` descending within the row's peer group in
`P`, decremented when the group contains a when-issued row; a null
`firstIssueDate` leaves a null vintage. -/
def vinMap (P : List Row) (x : Row) : Row :=
  { x with vintage :=
      x.firstIssueDate.map fun f =>
        (denseAbove (groupFids P x) f : Int) -
          (if hasWhenIssued P x then 1 else 0) }

/-- Vintage assignment over the whole frame (src lines 601-622). -/
def setVintage (P : List Row) : List Row :=
  P.map (vinMap P)

/-- Ascending comparison of nullable Booleans, nulls first. -/
def ltOptBool (a b : Option Bool) : Bool :=
  match a, b with
  | none, none => false
  | none, some _ => true
  | some _, none => false
  | some x, some y => !x && y

/-- Ascending comparison of nullable strings, nulls first. -/
def ltOptStr (a b : Option String) : Bool :=
  match a, b with
  | none, none => false
  | none, some _ => true
  | some _, none => false
  | some x, some y => decide (x < y)

/-- The final deterministic sort (src lines 630-633): floatingRate,
TIPS ascending; date, securityType descending; tenor, vintage
ascending. -/
def finalSortLe (x y : Row) : Bool :=
  if x.floatingRate = y.floatingRate then
    if x.TIPS = y.TIPS then
      if x.date = y.date then
        if x.securityType = y.securityType then
          if x.tenor = y.tenor then
            match x.vintage, y.vintage with
            | none, _ => true
            | some _, none => false
            | some a, some b => decide (a ≤ b)
          else ltOptInt x.tenor y.tenor
        else ltOptStr y.securityType x.securityType
      else decide (y.date < x.date)
    else ltOptBool x.TIPS y.TIPS
  else ltOptBool x.floatingRate y.floatingRate

/-- The full panel body: vintage ranking, weekend filter
(src lines 624-627: keep `weekday < 6`) and final sort. -/
def buildPanel (today : Nat) (rs : List CRecord) : List Row :=
  sortBy finalSortLe
    ((setVintage (prePanel today rs)).filter (fun x => weekday x.date < 6))

/-- `_createCusipPanel` (src lines 448-645).  `today` models the value
of the `date.today()` call on src line 484.  With no input record
there is no per-cusip calendar frame and `pl.concat(allCusipDates)`
on src line 505 raises `ValueError("cannot concat empty list")`;
this is the error case. -/
def createCusipPanel (today : Nat) (rs : List CRecord) :
    Except String (List Row) :=
  if rs.isEmpty then Except.error "cannot concat empty list"
  else Except.ok (buildPanel today rs)

/-! ### Derived quantities used by the claims -/

/-- Sum of `amountIssued` over a list of rows (nulls as 0). -/
def amtSum (l : List Row) : Int :=
  (l.map (fun x => x.amountIssued.getD 0)).sum

/-- Sum of `total_accepted` over a cusip's records (nulls as 0). -/
def accSum (rs : List CRecord) (c : String) : Int :=
  ((rs.filter (fun r => r.cusip == c)).map
    (fun r => r.total_accepted.getD 0)).sum

/-- Number of distinct values strictly above `f` in a finite set of
day numbers: the dense descending rank at Finset level. -/
def countAbove (S : Finset ℕ) (f : ℕ) : ℕ :=
  (S.filter (fun g => f < g)).card

/-! ### Concrete inputs for witnesses and counterexamples -/

/-- One already-issued bill: announced day 4 (a Monday), issued day 7
(a Thursday), maturing day 11, 100 accepted at auction. -/
def exA : List CRecord :=
  [ { cusip := "A", security_type := "Bill", issue_date := 7,
      maturity_date := 11, int_rate := none, total_accepted := some 100,
      issuanceType := some "Opening", tenor := some 1,
      unscheduledReopeningDate := none, inflation_index_security := false,
      floating_rate := false, announcemt_date := 4, auction_date := 5 } ]

/-- One future-dated bill: announced day 4, auctioned day 5 with 200
accepted, but issuing only on day 11, after the reference date 8. -/
def exB : List CRecord :=
  [ { cusip := "B", security_type := "Bill", issue_date := 11,
      maturity_date := 25, int_rate := none, total_accepted := some 200,
      issuanceType := some "Opening", tenor := some 2,
      unscheduledReopeningDate := none, inflation_index_security := false,
      floating_rate := false, announcemt_date := 4, auction_date := 5 } ]

/-- The panel built from `exA` at reference date 8 (a Friday). -/
def pA : List Row := (createCusipPanel 8 exA).toOption.getD []

/-- The panel built from `exB` at reference date 8. -/
def pB : List Row := (createCusipPanel 8 exB).toOption.getD []

/-- Lookup of the first panel row of a given cusip and date. -/
def pickRow (p : List Row) (c : String) (d : Nat) : Option Row :=
  (p.filter (fun x => x.cusip == c && x.date == d)).head?

/-- Raw records exercising the unscheduled-reopening override: an
opening of cusip "C" and a reopening of "C" announced under cusip "D". -/
def exC1rec : AuctionRecord :=
  { cusip := "C", security_type := "Note", issue_date := 10,
    original_issue_date := none, maturity_date := 100, int_rate := some 4,
    total_accepted := some 50, reopening := false,
    inflation_index_security := false, floating_rate := false,
    announcemt_date := 8, announcemtd_cusip := none, auction_date := 9 }

/-- The reopening record of the pair: non-null `announcemtd_cusip`
and `reopening = true`. -/
def exC2rec : AuctionRecord :=
  { cusip := "C", security_type := "Note", issue_date := 20,
    original_issue_date := some 10, maturity_date := 100, int_rate := some 4,
    total_accepted := some 30, reopening := true,
    inflation_index_security := false, floating_rate := false,
    announcemt_date := 15, announcemtd_cusip := some "D",
    auction_date := 16 }

/-- The two-record raw input for the classifier claims. -/
def exC : List AuctionRecord := [exC1rec, exC2rec]

/-- The issuance-day row of the `exA` panel. -/
def rowA7 : Row := (pickRow pA "A" 7).getD (emptyRow "Z" 0)

/-- The first announcement-window row of the `exA` panel. -/
def rowA4 : Row := (pickRow pA "A" 4).getD (emptyRow "Z" 0)

/-- The last row of the `exA` panel. -/
def rowA8 : Row := (pickRow pA "A" 8).getD (emptyRow "Z" 0)

/-- Two future-dated records of one cusip: "D" is announced on day 4
but issues on days 11 and 12, both after the reference date 8, and no
record of "D" is dated exactly 8. -/
def exD : List CRecord :=
  [ { cusip := "D", security_type := "Bill", issue_date := 11,
      maturity_date := 100, int_rate := none, total_accepted := some 300,
      issuanceType := some "Opening", tenor := some 1,
      unscheduledReopeningDate := none, inflation_index_security := false,
      floating_rate := false, announcemt_date := 4, auction_date := 5 },
    { cusip := "D", security_type := "Bill", issue_date := 12,
      maturity_date := 100, int_rate := none, total_accepted := some 400,
      issuanceType := some "Reopening", tenor := some 1,
      unscheduledReopeningDate := none, inflation_index_security := false,
      floating_rate := false, announcemt_date := 4, auction_date := 6 } ]

/-- The panel built from `exD` at reference date 8. -/
def pD : List Row := (createCusipPanel 8 exD).toOption.getD []

/-! ### Relations tracking what the fill stages preserve -/

/-- What the forward/backward fill passes preserve about a row: the
join key, the raw `amountIssued`, and any already-present
`firstIssueDate`. -/
def relFill (a b : Row) : Prop :=
  b.cusip = a.cusip ∧ b.date = a.date ∧ b.amountIssued = a.amountIssued ∧
  ∀ m, a.firstIssueDate = some m → b.firstIssueDate = some m

/-- Relation between a freshly joined row and its filled,
amount-normalized form: the key is preserved, the resulting
`amountIssued` is non-null and is either 0 or the original value, and
it equals the null-to-zero reading of the original whenever the
original row was not a pre-issuance slot. -/
def relFix (a b : Row) : Prop :=
  b.cusip = a.cusip ∧ b.date = a.date ∧
  (∃ v : Int, b.amountIssued = some v ∧ (v = 0 ∨ a.amountIssued = some v)) ∧
  ((a.amountIssued.isSome = true → ∃ m, a.firstIssueDate = some m ∧ m ≤ a.date) →
     b.amountIssued = some (a.amountIssued.getD 0))

/-! ### Theorems: generic list utilities -/

theorem insertLe_perm {α : Type} (le : α → α → Bool) (a : α) (l : List α) :
    (insertLe le a l).Perm (a :: l) := by
  induction l with
  | nil => simp [insertLe]
  | cons b l ih =>
    by_cases h : le a b = true
    · simp [insertLe, h]
    · simp only [insertLe, h, if_false, Bool.false_eq_true]
      exact (ih.cons b).trans (List.Perm.swap a b l)

theorem sortBy_perm {α : Type} (le : α → α → Bool) (l : List α) :
    (sortBy le l).Perm l := by
  induction l with
  | nil => simp [sortBy]
  | cons a l ih =>
    have h : sortBy le (a :: l) = insertLe le a (sortBy le l) := rfl
    rw [h]
    exact (insertLe_perm le a _).trans (ih.cons a)

theorem mem_sortBy {α : Type} {le : α → α → Bool} {l : List α} {x : α} :
    x ∈ sortBy le l ↔ x ∈ l :=
  (sortBy_perm le l).mem_iff

theorem mem_insertLe {α : Type} {le : α → α → Bool} {a x : α} {l : List α} :
    x ∈ insertLe le a l ↔ x = a ∨ x ∈ l := by
  have h : x ∈ insertLe le a l ↔ x ∈ a :: l := (insertLe_perm le a l).mem_iff
  simpa using h

theorem pairwise_insertLe {α : Type} {le : α → α → Bool}
    (htot : ∀ a b, le a b = true ∨ le b a = true)
    (htr : ∀ a b c, le a b = true → le b c = true → le a c = true)
    (a : α) {l : List α} (h : l.Pairwise (fun x y => le x y = true)) :
    (insertLe le a l).Pairwise (fun x y => le x y = true) := by
  induction l with
  | nil => simp [insertLe]
  | cons b l ih =>
    obtain ⟨hb, hl⟩ := List.pairwise_cons.mp h
    by_cases hab : le a b = true
    · simp only [insertLe, hab, if_true]
      refine List.Pairwise.cons ?_ (List.Pairwise.cons hb hl)
      intro x hx
      rcases List.mem_cons.mp hx with rfl | hx
      · exact hab
      · exact htr a b x hab (hb x hx)
    · simp only [insertLe, hab, if_false, Bool.false_eq_true]
      refine List.Pairwise.cons ?_ (ih hl)
      intro x hx
      rcases mem_insertLe.mp hx with rfl | hx
      · rcases htot x b with h1 | h1
        · exact absurd h1 hab
        · exact h1
      · exact hb x hx

theorem pairwise_sortBy {α : Type} {le : α → α → Bool}
    (htot : ∀ a b, le a b = true ∨ le b a = true)
    (htr : ∀ a b c, le a b = true → le b c = true → le a c = true)
    (l : List α) :
    (sortBy le l).Pairwise (fun x y => le x y = true) := by
  induction l with
  | nil => simp [sortBy]
  | cons a l ih =>
    have h : sortBy le (a :: l) = insertLe le a (sortBy le l) := rfl
    rw [h]
    exact pairwise_insertLe htot htr a ih

theorem mem_natRangeIncl {s e d : Nat} :
    d ∈ natRangeIncl s e ↔ s ≤ d ∧ d ≤ e := by
  simp only [natRangeIncl, List.mem_map, List.mem_range]
  constructor
  · rintro ⟨i, hi, rfl⟩
    omega
  · intro h
    exact ⟨d - s, by omega, by omega⟩

theorem nodup_natRangeIncl {s e : Nat} : (natRangeIncl s e).Nodup :=
  List.Nodup.map (fun a b h => by omega) (List.nodup_range _)

theorem mem_uniqAux {x : String} :
    ∀ {l seen : List String}, x ∈ uniqAux seen l ↔ x ∈ l ∧ x ∉ seen := by
  intro l
  induction l with
  | nil => intro seen; simp [uniqAux]
  | cons c l ih =>
    intro seen
    by_cases hc : c ∈ seen
    · rw [uniqAux, if_pos hc, ih]
      simp only [List.mem_cons]
      constructor
      · rintro ⟨h1, h2⟩
        exact ⟨Or.inr h1, h2⟩
      · rintro ⟨h1 | h1, h2⟩
        · exact absurd (h1 ▸ hc) h2
        · exact ⟨h1, h2⟩
    · rw [uniqAux, if_neg hc]
      simp only [List.mem_cons, ih]
      constructor
      · rintro (rfl | ⟨h1, h2⟩)
        · exact ⟨Or.inl rfl, hc⟩
        · exact ⟨Or.inr h1, fun hx => h2 (Or.inr hx)⟩
      · rintro ⟨h1 | h1, h2⟩
        · exact Or.inl h1
        · by_cases hxc : x = c
          · exact Or.inl hxc
          · exact Or.inr ⟨h1, fun hx => hx.elim hxc h2⟩

theorem nodup_uniqAux :
    ∀ (l : List String) {seen : List String}, (uniqAux seen l).Nodup := by
  intro l
  induction l with
  | nil => intro seen; simp [uniqAux]
  | cons c l ih =>
    intro seen
    by_cases hc : c ∈ seen
    · rw [uniqAux, if_pos hc]
      exact ih
    · rw [uniqAux, if_neg hc]
      refine List.nodup_cons.mpr ⟨?_, ih⟩
      intro hmem
      exact (mem_uniqAux.mp hmem).2 (List.mem_cons_self c seen)

theorem mem_cusips {rs : List CRecord} {c : String} :
    c ∈ cusips rs ↔ ∃ r ∈ rs, r.cusip = c := by
  simp [cusips, mem_uniqAux]

theorem nodup_cusips {rs : List CRecord} : (cusips rs).Nodup :=
  nodup_uniqAux _

theorem natMin?_le :
    ∀ {l : List Nat} {m x : Nat}, natMin? l = some m → x ∈ l → m ≤ x := by
  intro l
  induction l with
  | nil => intro m x h hx; simp [natMin?] at h
  | cons a l ih =>
    intro m x h hx
    rw [natMin?] at h
    cases hl : natMin? l with
    | none =>
      rw [hl] at h
      injection h with h
      subst h
      rcases List.mem_cons.mp hx with rfl | hx
      · exact le_refl x
      · cases l with
        | nil => simp at hx
        | cons b t =>
          rw [natMin?] at hl
          cases h2 : natMin? t <;> rw [h2] at hl <;> simp at hl
    | some k =>
      rw [hl] at h
      injection h with h
      subst h
      rcases List.mem_cons.mp hx with h3 | h3
      · rw [h3]
        exact min_le_left a k
      · exact le_trans (min_le_right a k) (ih hl h3)

theorem natMin?_isSome {l : List Nat} (h : l ≠ []) : (natMin? l).isSome := by
  cases l with
  | nil => exact absurd rfl h
  | cons a t =>
    rw [natMin?]
    cases natMin? t <;> simp

/-! ### Claim C9: tenor band disjointness -/

/-- Claim C9: the tenor bands of the classifier are mutually
non-overlapping: no integer termToMaturityDays value satisfies the
day-range conditions of two different bands of `bandQuads` (the bill
bands [6,8], [13,15], [26,30], [53,59], [86,96], [114,124], [149,159],
[176,188], [357,371] and the note/bond bands n*365.25 with tolerance
93, 93, 93, 180, 180, 240, 540, 720 days for n = 2,3,4,5,7,10,20,30),
so the tenor assigned by the first-match `when` chain `tenorOf` does
not depend on the evaluation order of the bands. -/
theorem C9_tenor_bands_disjoint :
    ∀ (t : Int) (i j : Fin bandQuads.length), i ≠ j →
      bandMem (bandQuads.get i) t → bandMem (bandQuads.get j) t → False := by
  have hchain : ∀ i j : Fin bandQuads.length, i < j →
      (bandQuads.get i).2.1 < (bandQuads.get j).1 := by decide
  intro t i j hij h1 h2
  simp only [bandMem] at h1 h2
  rcases lt_trichotomy i j with h | h | h
  · have hc := hchain i j h
    omega
  · exact hij h
  · have hc := hchain j i h
    omega

/-- Witness for C9: the term value 7 (a 1-week bill) lies in the first
band and therefore not simultaneously in the second. -/
theorem C9_tenor_bands_disjoint_witness :
    ¬ (bandMem ((24, 32, 1) : Int × Int × Int) 7 ∧
       bandMem ((52, 60, 2) : Int × Int × Int) 7) := by
  intro h
  exact C9_tenor_bands_disjoint 7 ⟨0, by decide⟩ ⟨1, by decide⟩
    (by decide) h.1 h.2

/-! ### Claim C8: the unscheduled-reopening override -/

/-- Claim C8: for a record with non-null `announcemtd_cusip` and
`reopening = Yes`, the classifier recomputes `termToMaturityDays` as
`earliestMaturityDate - thisRecord.issue_date` and sets the record's
`unscheduledReopeningDate` to its issue date; every record of the
cusip not satisfying that condition keeps the group-level
`earliestMaturityDate - earliestIssueDate` and a null
`unscheduledReopeningDate`.  The last two conjuncts tie the
per-record functions to the classifier output. -/
theorem C8_unscheduled_reopening_override (rs : List AuctionRecord)
    (r e : AuctionRecord) (hr : r ∈ rs)
    (he : earliestIn (rs.filter (fun x => x.cusip == r.cusip)) = some e) :
    (overrideCond r = true →
       termDaysOf rs r = (e.maturity_date : Int) - (r.issue_date : Int) ∧
       unschedOf r = some r.issue_date)
    ∧ (overrideCond r = false →
       termDaysOf rs r = (e.maturity_date : Int) - (e.issue_date : Int) ∧
       unschedOf r = none)
    ∧ (classifyTenor rs).map (fun x => x.unscheduledReopeningDate)
        = rs.map unschedOf
    ∧ (classifyTenor rs).map (fun x => x.tenor)
        = rs.map (fun x => tenorOf (termDaysOf rs x)) := by
  refine ⟨?_, ?_, ?_, ?_⟩
  · intro hov
    constructor
    · simp [termDaysOf, he, hov]
    · simp [unschedOf, hov]
  · intro hov
    constructor
    · simp [termDaysOf, he, hov]
    · simp [unschedOf, hov]
  · simp [classifyTenor]
  · simp [classifyTenor]

/-- Witness for C8 on the concrete pair `exC`: the reopening record
announced under another cusip gets term 100 - 20 = 80 and marker day
20, while the opening record keeps the group term 100 - 10 = 90 and a
null marker. -/
theorem C8_witness :
    termDaysOf exC exC2rec = 80 ∧ unschedOf exC2rec = some 20 ∧
    termDaysOf exC exC1rec = 90 ∧ unschedOf exC1rec = none := by
  have h2 := C8_unscheduled_reopening_override exC exC2rec exC1rec
    (by decide) (by decide)
  have h1 := C8_unscheduled_reopening_override exC exC1rec exC1rec
    (by decide) (by decide)
  obtain ⟨ha, -, -, -⟩ := h2
  obtain ⟨-, hb, -, -⟩ := h1
  have ha2 := ha (by decide)
  have hb2 := hb (by decide)
  refine ⟨?_, ha2.2, ?_, hb2.2⟩
  · rw [ha2.1]
    decide
  · rw [hb2.1]
    decide

/-! ### Claim C7: behaviour on empty input -/

/-- Claim C7 (code behaviour at the failing input): on an empty input
collection the panel builder does not return an empty panel; with no
cusip group, `allCusipDates` stays empty and `pl.concat(allCusipDates)`
on src line 505 raises `ValueError("cannot concat empty list")`, which
the embedding returns as the error case. -/
theorem C7_empty_input_raises (today : Nat) :
    createCusipPanel today [] = Except.error "cannot concat empty list" :=
  rfl

/-! ### Claim C4: determinism and the origin of the reference date -/

/-- Claim C4 (counterexample): `_createCusipPanel` reads `date.today()`
itself (src line 484) instead of taking the reference date from the
caller, and its output depends on that ambient value: the same single
input record yields different panels when the internal clock reads day
8 and day 11, so the core is not deterministic in its input records
alone. -/
theorem C4_today_dependence_cex :
    (createCusipPanel 8 exB).toOption.getD []
      ≠ (createCusipPanel 11 exB).toOption.getD [] := by decide

/-- Claim C4 (amended): the panel core derives the reference date
internally from the system clock; its output is a pure function of the
input records together with that derived date, so two runs with
identical records and an identical derived date produce identical
output. -/
theorem C4_deterministic_in_records_and_today
    (t₁ t₂ : Nat) (rs₁ rs₂ : List CRecord)
    (h1 : t₁ = t₂) (h2 : rs₁ = rs₂) :
    createCusipPanel t₁ rs₁ = createCusipPanel t₂ rs₂ := by
  rw [h1, h2]

/-- Witness for the amended C4 at a concrete input. -/
theorem C4_deterministic_witness :
    createCusipPanel 8 exA = createCusipPanel 8 exA :=
  C4_deterministic_in_records_and_today 8 8 exA exA rfl rfl

/-! ### Forall₂ machinery for the fill and cumulative-sum stages -/

theorem forall₂_mem_right {α β : Type} {R : α → β → Prop} :
    ∀ {l : List α} {m : List β}, List.Forall₂ R l m →
      ∀ b ∈ m, ∃ a ∈ l, R a b := by
  intro l m h
  induction h with
  | nil => intro b hb; cases hb
  | cons hab h ih =>
    intro b hb
    rcases List.mem_cons.mp hb with rfl | hb
    · exact ⟨_, List.mem_cons_self _ _, hab⟩
    · obtain ⟨a, ha, har⟩ := ih b hb
      exact ⟨a, List.mem_cons_of_mem _ ha, har⟩

theorem forall₂_chain {α β γ : Type} {R : α → β → Prop} {S : β → γ → Prop}
    {T : α → γ → Prop} (h : ∀ a b c, R a b → S b c → T a c) :
    ∀ {l₁ : List α} {l₂ : List β} {l₃ : List γ},
      List.Forall₂ R l₁ l₂ → List.Forall₂ S l₂ l₃ → List.Forall₂ T l₁ l₃ := by
  intro l₁ l₂ l₃ h12
  induction h12 generalizing l₃ with
  | nil =>
    intro h23
    cases h23
    exact List.Forall₂.nil
  | cons hab h12t ih =>
    intro h23
    cases h23 with
    | cons hbc h23t => exact List.Forall₂.cons (h _ _ _ hab hbc) (ih h23t)

theorem forall₂_map_right {α β γ : Type} {R : α → β → Prop}
    {S : α → γ → Prop} {f : β → γ} (h : ∀ a b, R a b → S a (f b)) :
    ∀ {l : List α} {m : List β},
      List.Forall₂ R l m → List.Forall₂ S l (m.map f) := by
  intro l m h12
  induction h12 with
  | nil => exact List.Forall₂.nil
  | cons hab h12t ih => exact List.Forall₂.cons (h _ _ hab) ih

theorem countP_forall₂ {α β : Type} {R : α → β → Prop}
    {p : α → Bool} {q : β → Bool} (hpq : ∀ a b, R a b → q b = p a) :
    ∀ {l : List α} {m : List β}, List.Forall₂ R l m →
      m.countP q = l.countP p := by
  intro l m h
  induction h with
  | nil => rfl
  | cons hab ht ih =>
    rw [List.countP_cons, List.countP_cons, ih, hpq _ _ hab]

theorem sum_forall₂ {α β : Type} {R : α → β → Prop}
    {f : α → Int} {g : β → Int} (hfg : ∀ a b, R a b → g b = f a) :
    ∀ {l : List α} {m : List β}, List.Forall₂ R l m →
      (m.map g).sum = (l.map f).sum := by
  intro l m h
  induction h with
  | nil => rfl
  | cons hab ht ih =>
    rw [List.map_cons, List.map_cons, List.sum_cons, List.sum_cons,
      ih, hfg _ _ hab]

theorem ffill_forall₂ : ∀ (l : List Row) (st : FillSt),
    List.Forall₂ relFill l (ffill st l) := by
  intro l
  induction l with
  | nil => intro st; exact List.Forall₂.nil
  | cons x l ih =>
    intro st
    refine List.Forall₂.cons ?_ (ih _)
    refine ⟨rfl, rfl, rfl, ?_⟩
    intro m hm
    simp [ffillStep, oFill, hm]

theorem bfillAux_forall₂ : ∀ (l : List Row),
    List.Forall₂ relFill l (bfillAux l).2 := by
  intro l
  induction l with
  | nil => exact List.Forall₂.nil
  | cons x l ih =>
    refine List.Forall₂.cons ?_ ih
    refine ⟨rfl, rfl, rfl, ?_⟩
    intro m hm
    simp [bfillStep, oFill, hm]

theorem relFill_trans {a b c : Row} (h1 : relFill a b) (h2 : relFill b c) :
    relFill a c := by
  obtain ⟨e1, e2, e3, e4⟩ := h1
  obtain ⟨f1, f2, f3, f4⟩ := h2
  exact ⟨f1.trans e1, f2.trans e2, f3.trans e3, fun m hm => f4 m (e4 m hm)⟩

theorem filled_forall₂ (l : List Row) :
    List.Forall₂ relFill l (bfill (ffill {} l)) := by
  have h : ∀ (a b c : Row), relFill a b → relFill b c → relFill a c :=
    fun a b c h1 h2 => relFill_trans h1 h2
  exact forall₂_chain h (ffill_forall₂ l {}) (bfillAux_forall₂ (ffill {} l))

theorem fixAmount_of_relFill {a b : Row} (h : relFill a b) :
    relFix a (fixAmount b) := by
  obtain ⟨e1, e2, e3, e4⟩ := h
  by_cases hb : beforeFirstIssue b = true
  · refine ⟨e1, e2, ⟨0, by simp [fixAmount, hb], Or.inl rfl⟩, ?_⟩
    intro hside
    cases ha : a.amountIssued with
    | none =>
      simp [fixAmount, hb]
    | some v =>
      obtain ⟨m, hm1, hm2⟩ := hside (by simp [ha])
      have hbf := e4 m hm1
      rw [beforeFirstIssue, hbf] at hb
      rw [e2] at hb
      simp at hb
      omega
  · refine ⟨e1, e2, ?_, ?_⟩
    · refine ⟨a.amountIssued.getD 0, ?_, ?_⟩
      · simp [fixAmount, hb, e3]
      · cases ha : a.amountIssued with
        | none => exact Or.inl (by simp [ha])
        | some v => exact Or.inr (by simp [ha])
    · intro hside
      simp [fixAmount, hb, e3]

theorem fixed_forall₂ (l : List Row) :
    List.Forall₂ relFix l ((bfill (ffill {} l)).map fixAmount) :=
  forall₂_map_right (fun a b h => fixAmount_of_relFill h) (filled_forall₂ l)

theorem cumSum_forall₂ : ∀ (l : List Row) (acc : Int),
    List.Forall₂ (fun a b => b = { a with totalIssued := b.totalIssued })
      l (cumSum acc l) := by
  intro l
  induction l with
  | nil => intro acc; exact List.Forall₂.nil
  | cons x l ih =>
    intro acc
    cases hv : x.amountIssued with
    | some v =>
      have hcs : cumSum acc (x :: l) =
          { x with totalIssued := some (acc + v) } :: cumSum (acc + v) l := by
        rw [cumSum, hv]
      rw [hcs]
      exact List.Forall₂.cons rfl (ih _)
    | none =>
      have hcs : cumSum acc (x :: l) =
          { x with totalIssued := none } :: cumSum acc l := by
        rw [cumSum, hv]
      rw [hcs]
      exact List.Forall₂.cons rfl (ih _)

theorem cumSum_lower :
    ∀ {l : List Row} {acc : Int},
      (∀ x ∈ l, ∃ v, x.amountIssued = some v ∧ 0 ≤ v) →
      ∀ y ∈ cumSum acc l, ∃ w, y.totalIssued = some w ∧ acc ≤ w := by
  intro l
  induction l with
  | nil => intro acc h y hy; cases hy
  | cons x l ih =>
    intro acc h y hy
    obtain ⟨v, hv, hv0⟩ := h x (List.mem_cons_self x l)
    rw [cumSum, hv] at hy
    rcases List.mem_cons.mp hy with rfl | hy
    · exact ⟨acc + v, rfl, by omega⟩
    · obtain ⟨w, hw, hw2⟩ := ih (fun z hz => h z (List.mem_cons_of_mem x hz)) y hy
      exact ⟨w, hw, by omega⟩

theorem cumSum_all_some :
    ∀ {l : List Row} {acc : Int},
      (∀ x ∈ l, x.amountIssued.isSome = true) →
      ∀ y ∈ cumSum acc l,
        y.amountIssued.isSome = true ∧ y.totalIssued.isSome = true := by
  intro l
  induction l with
  | nil => intro acc h y hy; cases hy
  | cons x l ih =>
    intro acc h y hy
    have hx := h x (List.mem_cons_self x l)
    cases hv : x.amountIssued with
    | none => rw [hv] at hx; cases hx
    | some v =>
      rw [cumSum, hv] at hy
      rcases List.mem_cons.mp hy with rfl | hy
      · exact ⟨by simp [hv], rfl⟩
      · exact ih (fun z hz => h z (List.mem_cons_of_mem x hz)) y hy

theorem cumSum_mono :
    ∀ {l : List Row} {acc : Int},
      (∀ x ∈ l, ∃ v, x.amountIssued = some v ∧ 0 ≤ v) →
      l.Pairwise (fun a b => a.date ≤ b.date) →
      (cumSum acc l).Pairwise (fun a b => a.date ≤ b.date ∧
        ∀ u v, a.totalIssued = some u → b.totalIssued = some v → u ≤ v) := by
  intro l
  induction l with
  | nil => intro acc h hs; exact List.Pairwise.nil
  | cons x l ih =>
    intro acc h hs
    obtain ⟨hx, hl⟩ := List.pairwise_cons.mp hs
    obtain ⟨v, hv, hv0⟩ := h x (List.mem_cons_self x l)
    rw [cumSum, hv]
    refine List.Pairwise.cons ?_ (ih (fun z hz => h z (List.mem_cons_of_mem x hz)) hl)
    intro y hy
    obtain ⟨y0, hy0, hyr⟩ := forall₂_mem_right (cumSum_forall₂ l (acc + v)) y hy
    constructor
    · have : y.date = y0.date := by rw [hyr]
      rw [this]
      exact hx y0 hy0
    · intro u w hu hw
      obtain ⟨w2, hw2, hge⟩ := cumSum_lower
        (fun z hz => h z (List.mem_cons_of_mem x hz)) y hy
      have hu2 : u = acc + v := by
        simp at hu
        omega
      rw [hw] at hw2
      injection hw2 with hw2
      omega

/-! ### The join, slot by slot -/

theorem keyB_iff {c : String} {d : Nat} {x : Row} :
    keyB c d x = true ↔ x.cusip = c ∧ x.date = d := by
  simp [keyB]

theorem nodup_calendarFor {today : Nat} {rs : List CRecord} {c : String} :
    (calendarFor today rs c).Nodup := by
  unfold calendarFor
  cases minAnnounce rs c with
  | none => simp
  | some s =>
    cases headMaturity rs c with
    | none => simp
    | some e => exact nodup_natRangeIncl

theorem mem_joinRows {today : Nat} {rs : List CRecord} {ad : List Row}
    {c : String} {a : Row} (ha : a ∈ joinRows today rs ad c) :
    a.cusip = c ∧ a.date ∈ calendarFor today rs c ∧
      (a ∈ ad ∨ (a.amountIssued = none ∧ a.firstIssueDate = none)) := by
  rw [joinRows, List.mem_flatMap] at ha
  obtain ⟨d, hd, hsl⟩ := ha
  by_cases hms : (ad.filter (keyB c d)).isEmpty = true
  · rw [if_pos hms] at hsl
    simp only [List.mem_singleton] at hsl
    subst hsl
    exact ⟨rfl, hd, Or.inr ⟨rfl, rfl⟩⟩
  · rw [if_neg hms] at hsl
    obtain ⟨hmem, hp⟩ := List.mem_filter.mp hsl
    obtain ⟨hc, hdate⟩ := keyB_iff.mp hp
    exact ⟨hc, by rwa [hdate], Or.inl hmem⟩

theorem countP_flatMap_zero {α β : Type} (K : List α) (g : α → List β)
    (p : β → Bool) (hz : ∀ k ∈ K, (g k).countP p = 0) :
    (K.flatMap g).countP p = 0 := by
  induction K with
  | nil => rfl
  | cons k K ih =>
    rw [List.flatMap_cons, List.countP_append,
      hz k (List.mem_cons_self k K),
      ih (fun a ha => hz a (List.mem_cons_of_mem k ha))]

theorem countP_flatMap_single {α β : Type} {K : List α} (g : α → List β)
    (p : β → Bool) {d : α} (hnd : K.Nodup) (hd : d ∈ K)
    (hz : ∀ k ∈ K, k ≠ d → (g k).countP p = 0) :
    (K.flatMap g).countP p = (g d).countP p := by
  induction K with
  | nil => cases hd
  | cons k K ih =>
    obtain ⟨hk1, hk2⟩ := List.nodup_cons.mp hnd
    rw [List.flatMap_cons, List.countP_append]
    rcases List.mem_cons.mp hd with rfl | hd2
    · rw [countP_flatMap_zero K g p
        (fun a ha => hz a (List.mem_cons_of_mem _ ha)
          (fun he => hk1 (by rw [← he]; exact ha)))]
      omega
    · rw [hz k (List.mem_cons_self _ _) (fun he => hk1 (by rw [he]; exact hd2)),
        ih hk2 hd2 (fun a ha hne => hz a (List.mem_cons_of_mem _ ha) hne)]
      omega

theorem countP_slot_ne {ad : List Row} {c : String} {d k : Nat} (hne : k ≠ d) :
    (if (ad.filter (keyB c k)).isEmpty then [emptyRow c k]
     else ad.filter (keyB c k)).countP (keyB c d) = 0 := by
  rw [List.countP_eq_zero]
  intro a ha hpa
  have hdd : a.date = d := (keyB_iff.mp hpa).2
  by_cases hms : (ad.filter (keyB c k)).isEmpty = true
  · rw [if_pos hms] at ha
    simp only [List.mem_singleton] at ha
    subst ha
    exact hne hdd
  · rw [if_neg hms] at ha
    have hdk : a.date = k := (keyB_iff.mp (List.mem_filter.mp ha).2).2
    exact hne (by omega)

theorem countP_slot_eq_one {ad : List Row} {c : String} {d : Nat}
    (huniq : (ad.filter (keyB c d)).length ≤ 1) :
    (if (ad.filter (keyB c d)).isEmpty then [emptyRow c d]
     else ad.filter (keyB c d)).countP (keyB c d) = 1 := by
  by_cases hms : (ad.filter (keyB c d)).isEmpty = true
  · rw [if_pos hms]
    simp [keyB, emptyRow]
  · rw [if_neg hms]
    have hall : ∀ a ∈ ad.filter (keyB c d), keyB c d a = true :=
      fun a ha => (List.mem_filter.mp ha).2
    rw [List.countP_eq_length.mpr hall]
    cases h : ad.filter (keyB c d) with
    | nil => rw [h] at hms; simp at hms
    | cons y t =>
      rw [h] at huniq
      simp only [List.length_cons] at huniq ⊢
      omega

theorem countP_joinRows_eq_one {today : Nat} {rs : List CRecord}
    {ad : List Row} {c : String} {d : Nat}
    (hd : d ∈ calendarFor today rs c)
    (huniq : (ad.filter (keyB c d)).length ≤ 1) :
    (joinRows today rs ad c).countP (keyB c d) = 1 := by
  rw [joinRows,
    countP_flatMap_single _ _ nodup_calendarFor hd
      (fun k hk hne => countP_slot_ne hne)]
  exact countP_slot_eq_one huniq

theorem countP_joinRows_other {today : Nat} {rs : List CRecord}
    {ad : List Row} {c c2 : String} {d : Nat} (hne : c ≠ c2) :
    (joinRows today rs ad c).countP (keyB c2 d) = 0 := by
  rw [List.countP_eq_zero]
  intro a ha hpa
  exact hne ((mem_joinRows ha).1.symm.trans (keyB_iff.mp hpa).1)

/-! ### Counting a join key through the pipeline stages -/

theorem block_countP (today : Nat) (rs : List CRecord) (ad : List Row)
    (c c2 : String) (d : Nat) :
    (cusipBlock today rs ad c).countP (keyB c2 d)
      = (joinRows today rs ad c).countP (keyB c2 d) := by
  rw [cusipBlock]
  have h1 : (cumSum 0 (sortBy leCum
        ((bfill (ffill {} (joinRows today rs ad c))).map fixAmount))).countP
          (keyB c2 d)
      = (sortBy leCum
          ((bfill (ffill {} (joinRows today rs ad c))).map fixAmount)).countP
          (keyB c2 d) :=
    countP_forall₂ (fun a b hab => by rw [hab]; rfl) (cumSum_forall₂ _ _)
  have h2 : (sortBy leCum
        ((bfill (ffill {} (joinRows today rs ad c))).map fixAmount)).countP
          (keyB c2 d)
      = ((bfill (ffill {} (joinRows today rs ad c))).map fixAmount).countP
          (keyB c2 d) :=
    (sortBy_perm leCum _).countP_eq (keyB c2 d)
  have h3 : ((bfill (ffill {} (joinRows today rs ad c))).map fixAmount).countP
        (keyB c2 d)
      = (bfill (ffill {} (joinRows today rs ad c))).countP (keyB c2 d) := by
    rw [List.countP_map]
    exact List.countP_congr (fun x hx => Iff.rfl)
  have h4 : (bfill (ffill {} (joinRows today rs ad c))).countP (keyB c2 d)
      = (joinRows today rs ad c).countP (keyB c2 d) :=
    countP_forall₂ (fun a b hab => by simp [keyB, hab.1, hab.2.1])
      (filled_forall₂ _)
  rw [h1, h2, h3, h4]

theorem block_cusip {today : Nat} {rs : List CRecord} {ad : List Row}
    {c : String} : ∀ x ∈ cusipBlock today rs ad c, x.cusip = c := by
  intro x hx
  rw [cusipBlock] at hx
  obtain ⟨x0, hx0, hxr⟩ := forall₂_mem_right (cumSum_forall₂ _ _) x hx
  have hx1 : x0 ∈ (bfill (ffill {} (joinRows today rs ad c))).map fixAmount :=
    mem_sortBy.mp hx0
  obtain ⟨a, ha, har⟩ := forall₂_mem_right (fixed_forall₂ _) x0 hx1
  have hcu : x.cusip = x0.cusip := by rw [hxr]
  rw [hcu, har.1, (mem_joinRows ha).1]

theorem countP_prePanel {today : Nat} {rs : List CRecord} {c : String}
    {d : Nat} (hc : c ∈ cusips rs) :
    (prePanel today rs).countP (keyB c d)
      = (joinRows today rs (resolveFutureDated today (auctionRows rs))
          c).countP (keyB c d) := by
  simp only [prePanel]
  rw [countP_flatMap_single _ _ nodup_cusips hc (fun k hk hne => by
    rw [List.countP_eq_zero]
    intro a ha hpa
    exact hne ((block_cusip a ha).symm.trans (keyB_iff.mp hpa).1))]
  exact block_countP today rs _ c c d

theorem countP_setVintage (P : List Row) (c : String) (d : Nat) :
    (setVintage P).countP (keyB c d) = P.countP (keyB c d) := by
  rw [setVintage, List.countP_map]
  exact List.countP_congr (fun x hx => Iff.rfl)

theorem countP_filter_weekday (P : List Row) (c : String) (d : Nat)
    (hwk : weekday d < 6) :
    (P.filter (fun x => decide (weekday x.date < 6))).countP (keyB c d)
      = P.countP (keyB c d) := by
  rw [List.countP_filter]
  refine List.countP_congr (fun x hx => ?_)
  constructor
  · intro h
    exact ((Bool.and_eq_true _ _).mp h).1
  · intro h
    have hdd : x.date = d := (keyB_iff.mp h).2
    rw [Bool.and_eq_true]
    exact ⟨h, by simp [hdd, hwk]⟩

theorem countP_buildPanel_key {today : Nat} {rs : List CRecord} {c : String}
    {d : Nat} (hc : c ∈ cusips rs) (hwk : weekday d < 6)
    (hd : d ∈ calendarFor today rs c)
    (huniq : ((resolveFutureDated today (auctionRows rs)).filter
        (keyB c d)).length ≤ 1) :
    (buildPanel today rs).countP (keyB c d) = 1 := by
  rw [buildPanel, (sortBy_perm finalSortLe _).countP_eq (keyB c d),
    countP_filter_weekday _ _ _ hwk, countP_setVintage,
    countP_prePanel hc]
  exact countP_joinRows_eq_one hd huniq

theorem buildPanel_no_weekend {today : Nat} {rs : List CRecord} :
    ∀ x ∈ buildPanel today rs,
      weekday x.date ≠ 6 ∧ weekday x.date ≠ 7 := by
  intro x hx
  rw [buildPanel, mem_sortBy, List.mem_filter] at hx
  have h2 := hx.2
  simp only [decide_eq_true_eq] at h2
  omega

/-! ### Uniqueness of join matches under well-formed inputs -/

theorem length_filter_le_one {α : Type} {l : List α} {p : α → Bool}
    (h : l.Pairwise (fun a b => ¬(p a = true ∧ p b = true))) :
    (l.filter p).length ≤ 1 := by
  induction l with
  | nil => simp
  | cons a l ih =>
    obtain ⟨ha, hl⟩ := List.pairwise_cons.mp h
    by_cases hpa : p a = true
    · rw [List.filter_cons_of_pos hpa]
      have hnil : l.filter p = [] :=
        List.filter_eq_nil_iff.mpr (fun b hb hpb => ha b hb ⟨hpa, hpb⟩)
      rw [hnil]
      simp
    · rw [List.filter_cons_of_neg hpa]
      exact ih hl

theorem mem_futureNoToday {today : Nat} {ad : List Row} {a : Row}
    (ha : a ∈ futureNoToday today ad) :
    a ∈ ad ∧ today < a.date ∧
      (todayCusips today ad).contains a.cusip = false := by
  rw [futureNoToday, List.mem_filter] at ha
  obtain ⟨ha1, ha2⟩ := ha
  rw [futureRows, List.mem_filter] at ha1
  refine ⟨ha1.1, by simpa using ha1.2, by simpa using ha2⟩

theorem auctionRows_pairwise {today : Nat} {rs : List CRecord}
    (h : rs.Pairwise (fun r q => r.cusip = q.cusip →
        r.issue_date ≠ q.issue_date ∧
        ¬(today < r.issue_date ∧ today < q.issue_date))) :
    (auctionRows rs).Pairwise (fun a b => a.cusip = b.cusip →
        a.date ≠ b.date ∧ ¬(today < a.date ∧ today < b.date)) := by
  rw [auctionRows, List.pairwise_map]
  exact h.imp (fun hab => hab)

theorem resolve_pairwise {today : Nat} {ad : List Row}
    (h : ad.Pairwise (fun a b => a.cusip = b.cusip →
        a.date ≠ b.date ∧ ¬(today < a.date ∧ today < b.date))) :
    (resolveFutureDated today ad).Pairwise
      (fun a b => ¬(a.cusip = b.cusip ∧ a.date = b.date)) := by
  have hkept : (ad.filter (fun r => decide (r.date ≤ today))).Pairwise
      (fun a b => ¬(a.cusip = b.cusip ∧ a.date = b.date)) :=
    (List.Pairwise.sublist (List.filter_sublist ad) h).imp
      (fun hab hcd => (hab hcd.1).1 hcd.2)
  rw [resolveFutureDated]
  by_cases h1 : (futureRows today ad).isEmpty = true
  · rw [if_pos h1]
    exact h.imp (fun hab hcd => (hab hcd.1).1 hcd.2)
  · rw [if_neg h1]
    by_cases h2 : (futureNoToday today ad).isEmpty = true
    · rw [if_pos h2]
      exact hkept
    · rw [if_neg h2]
      rw [List.pairwise_append]
      refine ⟨hkept, ?_, ?_⟩
      · rw [List.pairwise_map]
        have hsub : List.Sublist (futureNoToday today ad) ad :=
          (List.filter_sublist _).trans (List.filter_sublist _)
        have hfnt := List.Pairwise.sublist hsub h
        refine hfnt.imp_of_mem ?_
        intro a b ha hb hab
        rintro ⟨hc, -⟩
        have ha2 := (mem_futureNoToday ha).2.1
        have hb2 := (mem_futureNoToday hb).2.1
        exact (hab hc).2 ⟨ha2, hb2⟩
      · intro a ha b hb
        rintro ⟨hc, hd⟩
        obtain ⟨b0, hb0, rfl⟩ := List.mem_map.mp hb
        have haad := (List.mem_filter.mp ha).1
        have hatoday : a.date = today := hd
        have hmem : a.cusip ∈ todayCusips today ad := by
          rw [todayCusips]
          exact List.mem_map.mpr
            ⟨a, List.mem_filter.mpr ⟨haad, by simp [hatoday]⟩, rfl⟩
        have hb0f := (mem_futureNoToday hb0).2.2
        have hbc : b0.cusip ∈ todayCusips today ad := by
          have : a.cusip = b0.cusip := hc
          rwa [this] at hmem
        rw [List.contains, Bool.eq_false_iff] at hb0f
        exact hb0f (List.elem_iff.mpr hbc)

theorem resolve_filter_le_one {today : Nat} {rs : List CRecord}
    {c : String} {d : Nat}
    (hkey : rs.Pairwise (fun r q => r.cusip = q.cusip →
        r.issue_date ≠ q.issue_date ∧
        ¬(today < r.issue_date ∧ today < q.issue_date))) :
    ((resolveFutureDated today (auctionRows rs)).filter
        (keyB c d)).length ≤ 1 := by
  refine length_filter_le_one ?_
  refine (resolve_pairwise (auctionRows_pairwise hkey)).imp ?_
  intro a b hab
  rintro ⟨hka, hkb⟩
  obtain ⟨ha1, ha2⟩ := keyB_iff.mp hka
  obtain ⟨hb1, hb2⟩ := keyB_iff.mp hkb
  exact hab ⟨ha1.trans hb1.symm, by omega⟩

/-! ### The claimed panel span -/

theorem createCusipPanel_ok {today : Nat} {rs : List CRecord} {p : List Row}
    (hp : createCusipPanel today rs = Except.ok p) :
    p = buildPanel today rs := by
  rw [createCusipPanel] at hp
  by_cases h : rs.isEmpty = true
  · rw [if_pos h] at hp
    cases hp
  · rw [if_neg h] at hp
    injection hp with hp
    exact hp.symm

theorem mem_calendarFor {today : Nat} {rs : List CRecord} {c : String}
    {d s e : Nat} (hs : minAnnounce rs c = some s)
    (he : headMaturity rs c = some e) :
    d ∈ calendarFor today rs c ↔ s ≤ d ∧ d ≤ min e today := by
  unfold calendarFor
  rw [hs, he]
  exact mem_natRangeIncl

theorem headMaturity_of_const {rs : List CRecord} {c : String} {e : Nat}
    (hex : ∃ r ∈ rs, r.cusip = c)
    (hconst : ∀ r ∈ rs, r.cusip = c → r.maturity_date = e) :
    headMaturity rs c = some e := by
  obtain ⟨r0, hr0, hc0⟩ := hex
  rw [headMaturity]
  have hmem : r0 ∈ rs.filter (fun r => r.cusip == c) :=
    List.mem_filter.mpr ⟨hr0, by simp [hc0]⟩
  cases hs : sortBy (fun a b => decide (a.issue_date ≤ b.issue_date))
      (rs.filter (fun r => r.cusip == c)) with
  | nil =>
    exfalso
    have hmm : r0 ∈ sortBy (fun a b => decide (a.issue_date ≤ b.issue_date))
        (rs.filter (fun r => r.cusip == c)) := mem_sortBy.mpr hmem
    rw [hs] at hmm
    cases hmm
  | cons y t =>
    have hy : y ∈ rs.filter (fun r => r.cusip == c) := by
      have hymem : y ∈ sortBy (fun a b => decide (a.issue_date ≤ b.issue_date))
          (rs.filter (fun r => r.cusip == c)) := by
        rw [hs]
        exact List.mem_cons_self y t
      exact mem_sortBy.mp hymem
    obtain ⟨hy1, hy2⟩ := List.mem_filter.mp hy
    have hme := hconst y hy1 (by simpa using hy2)
    simp [hme]

/-! ### Claim C1: exactly one panel row per business date in span -/

/-- Claim C1 (counterexample): as stated, the exactly-one property
fails.  Cusip "D" has two future-dated records (issue days 11 and 12,
both past the reference date 8) and no record dated exactly 8, so the
future-dated resolution re-dates both records to day 8 and the
calendar left join emits both at the `("D", 8)` slot: the output panel
holds two rows keyed `("D", 8)` even though 8 is a business date
(a Friday) inside the cusip's span. -/
theorem C1_duplicate_row_cex :
    createCusipPanel 8 exD = Except.ok pD
    ∧ "D" ∈ cusips exD ∧ (8 : Nat) ∈ calendarFor 8 exD "D"
    ∧ weekday 8 < 6
    ∧ (pD.filter (keyB "D" 8)).length = 2 :=
  ⟨rfl, by decide, by decide, by decide, by decide⟩

/-- Claim C1 (amended): for every cusip `c` in the input and every
business date `d` in `[min announcementDate(c), min(maturityDate(c),
today)]`, the output panel contains exactly one row keyed `(c, d)`,
and no output row falls on a Saturday (`weekday = 6`) or Sunday
(`weekday = 7`) — provided no cusip carries two future-dated records
(otherwise the resolution re-dates each of them to `today` and the
left join duplicates that slot, as the counterexample shows).
Well-formedness hypotheses: no two records of one cusip share an
issue date (`hkey` with the above), and `maturity_date` is constant
(= `e`) across the cusip's records, which identifies the code's
per-group `maturity_date.first()` bound with the claim's
`maturityDate(c)`. -/
theorem C1_one_row_per_business_date (today : Nat) (rs : List CRecord)
    (p : List Row) (hp : createCusipPanel today rs = Except.ok p)
    (hkey : rs.Pairwise (fun r q => r.cusip = q.cusip →
        r.issue_date ≠ q.issue_date ∧
        ¬(today < r.issue_date ∧ today < q.issue_date)))
    (c : String) (hc : c ∈ cusips rs) :
    (∀ d s e, minAnnounce rs c = some s →
       (∀ r ∈ rs, r.cusip = c → r.maturity_date = e) →
       s ≤ d → d ≤ min e today → weekday d < 6 →
       (p.filter (keyB c d)).length = 1)
    ∧ (∀ x ∈ p, weekday x.date ≠ 6 ∧ weekday x.date ≠ 7) := by
  have hpb := createCusipPanel_ok hp
  subst hpb
  constructor
  · intro d s e hs hconst hsd hde hwk
    have hex : ∃ r ∈ rs, r.cusip = c := mem_cusips.mp hc
    have he : headMaturity rs c = some e := headMaturity_of_const hex hconst
    have hd : d ∈ calendarFor today rs c :=
      (mem_calendarFor hs he).mpr ⟨hsd, hde⟩
    rw [← List.countP_eq_length_filter]
    exact countP_buildPanel_key hc hwk hd (resolve_filter_le_one hkey)
  · exact buildPanel_no_weekend

/-- Witness for C1: in the concrete panel `pA` (reference date 8),
cusip "A" has exactly one row on business day 5 of its span [4, 8]. -/
theorem C1_witness : (pA.filter (keyB "A" 5)).length = 1 :=
  (C1_one_row_per_business_date 8 exA pA rfl (by decide) "A"
      (by decide)).1
    5 4 11 (by decide) (by decide) (by decide) (by decide) (by decide)

/-! ### Membership transport through the final stages -/

theorem mem_buildPanel_elim {today : Nat} {rs : List CRecord} {x : Row}
    (hx : x ∈ buildPanel today rs) :
    weekday x.date < 6 ∧ ∃ y ∈ prePanel today rs,
      x = { y with vintage := x.vintage } := by
  rw [buildPanel, mem_sortBy, List.mem_filter] at hx
  obtain ⟨hx1, hx2⟩ := hx
  rw [setVintage, List.mem_map] at hx1
  obtain ⟨y, hy, rfl⟩ := hx1
  exact ⟨by simpa using hx2, y, hy, rfl⟩

theorem mem_prePanel_elim {today : Nat} {rs : List CRecord} {y : Row}
    (hy : y ∈ prePanel today rs) :
    ∃ c ∈ cusips rs,
      y ∈ cusipBlock today rs (resolveFutureDated today (auctionRows rs)) c := by
  simp only [prePanel, List.mem_flatMap] at hy
  exact hy

theorem vintage_update_cusip {x y : Row}
    (h : x = { y with vintage := x.vintage }) : x.cusip = y.cusip :=
  (congrArg Row.cusip h).trans rfl

theorem vintage_update_date {x y : Row}
    (h : x = { y with vintage := x.vintage }) : x.date = y.date :=
  (congrArg Row.date h).trans rfl

theorem vintage_update_amount {x y : Row}
    (h : x = { y with vintage := x.vintage }) :
    x.amountIssued = y.amountIssued :=
  (congrArg Row.amountIssued h).trans rfl

theorem vintage_update_total {x y : Row}
    (h : x = { y with vintage := x.vintage }) :
    x.totalIssued = y.totalIssued :=
  (congrArg Row.totalIssued h).trans rfl

theorem vintage_update_fid {x y : Row}
    (h : x = { y with vintage := x.vintage }) :
    x.firstIssueDate = y.firstIssueDate :=
  (congrArg Row.firstIssueDate h).trans rfl

theorem vintage_update_gkey {x y : Row}
    (h : x = { y with vintage := x.vintage }) : gkey x = gkey y := by
  rw [gkey, gkey, vintage_update_date h]
  have h1 : x.securityType = y.securityType :=
    (congrArg Row.securityType h).trans rfl
  have h2 : x.TIPS = y.TIPS := (congrArg Row.TIPS h).trans rfl
  have h3 : x.floatingRate = y.floatingRate :=
    (congrArg Row.floatingRate h).trans rfl
  have h4 : x.tenor = y.tenor := (congrArg Row.tenor h).trans rfl
  rw [h1, h2, h3, h4]

/-! ### Claim C10: non-null amounts in every output row -/

theorem fixAmount_isSome (x : Row) :
    (fixAmount x).amountIssued.isSome = true := by
  by_cases h : beforeFirstIssue x = true <;> simp [fixAmount, h]

theorem block_all_some {today : Nat} {rs : List CRecord} {ad : List Row}
    {c : String} :
    ∀ y ∈ cusipBlock today rs ad c,
      y.amountIssued.isSome = true ∧ y.totalIssued.isSome = true := by
  intro y hy
  rw [cusipBlock] at hy
  refine cumSum_all_some ?_ y hy
  intro z hz
  rw [mem_sortBy] at hz
  obtain ⟨z0, hz0, rfl⟩ := List.mem_map.mp hz
  exact fixAmount_isSome z0

/-- Claim C10: in every output panel row, `amountIssued` and
`totalIssued` are non-null: the amount normalization of src lines
584-590 replaces every null produced by the calendar left join (and
every pre-firstIssueDate slot) by 0 before the running sum, so both
columns can be summed without meeting missing values. -/
theorem C10_amounts_non_null (today : Nat) (rs : List CRecord)
    (p : List Row) (hp : createCusipPanel today rs = Except.ok p) :
    ∀ x ∈ p, x.amountIssued.isSome = true ∧ x.totalIssued.isSome = true := by
  intro x hx
  rw [createCusipPanel_ok hp] at hx
  obtain ⟨hwk, y, hy, hxy⟩ := mem_buildPanel_elim hx
  obtain ⟨c, hc, hyc⟩ := mem_prePanel_elim hy
  have h := block_all_some y hyc
  rw [vintage_update_amount hxy, vintage_update_total hxy]
  exact h

/-- Witness for C10 at a concrete output row. -/
theorem C10_witness :
    rowA7.amountIssued.isSome = true ∧ rowA7.totalIssued.isSome = true :=
  C10_amounts_non_null 8 exA pA rfl rowA7 (by decide)

/-! ### Claim C5: monotone cumulative issuance -/

theorem ltOptInt_trans {a b c : Option Int}
    (h1 : ltOptInt a b = true) (h2 : ltOptInt b c = true) :
    ltOptInt a c = true := by
  cases a <;> cases b <;> cases c <;> simp [ltOptInt] at * <;> omega

theorem ltOptInt_asymm {a b : Option Int}
    (h1 : ltOptInt a b = true) (h2 : ltOptInt b a = true) : False := by
  cases a <;> cases b <;> simp [ltOptInt] at * <;> omega

theorem ltOptInt_total_ne {a b : Option Int} (h : a ≠ b) :
    ltOptInt a b = true ∨ ltOptInt b a = true := by
  cases a <;> cases b <;> simp [ltOptInt] at * <;> omega

theorem leOptNatDesc_total (a b : Option Nat) :
    leOptNatDesc a b = true ∨ leOptNatDesc b a = true := by
  cases a <;> cases b <;> simp [leOptNatDesc] <;> omega

theorem leOptNatDesc_trans {a b c : Option Nat}
    (h1 : leOptNatDesc a b = true) (h2 : leOptNatDesc b c = true) :
    leOptNatDesc a c = true := by
  cases a <;> cases b <;> cases c <;> simp [leOptNatDesc] at * <;> omega

theorem leCum_total (x y : Row) : leCum x y = true ∨ leCum y x = true := by
  by_cases hd : x.date = y.date
  · rw [leCum, if_pos hd, leCum, if_pos hd.symm]
    by_cases ht : x.tenor = y.tenor
    · rw [if_pos ht, if_pos ht.symm]
      exact leOptNatDesc_total _ _
    · rw [if_neg ht, if_neg (Ne.symm ht)]
      exact ltOptInt_total_ne ht
  · rw [leCum, if_neg hd, leCum, if_neg (Ne.symm hd)]
    simp only [decide_eq_true_eq]
    omega

theorem leCum_trans {x y z : Row}
    (h1 : leCum x y = true) (h2 : leCum y z = true) : leCum x z = true := by
  by_cases hxy : x.date = y.date <;> by_cases hyz : y.date = z.date
  · have hxz : x.date = z.date := hxy.trans hyz
    rw [leCum, if_pos hxy] at h1
    rw [leCum, if_pos hyz] at h2
    rw [leCum, if_pos hxz]
    by_cases t1 : x.tenor = y.tenor <;> by_cases t2 : y.tenor = z.tenor
    · rw [if_pos t1] at h1
      rw [if_pos t2] at h2
      rw [if_pos (t1.trans t2)]
      exact leOptNatDesc_trans h1 h2
    · rw [if_pos t1] at h1
      rw [if_neg t2] at h2
      have t3 : x.tenor ≠ z.tenor := by rw [t1]; exact t2
      rw [if_neg t3, t1]
      exact h2
    · rw [if_neg t1] at h1
      rw [if_pos t2] at h2
      have t3 : x.tenor ≠ z.tenor := by rw [← t2]; exact t1
      rw [if_neg t3, ← t2]
      exact h1
    · rw [if_neg t1] at h1
      rw [if_neg t2] at h2
      by_cases t3 : x.tenor = z.tenor
      · exfalso
        rw [t3] at h1
        exact ltOptInt_asymm h1 h2
      · rw [if_neg t3]
        exact ltOptInt_trans h1 h2
  · rw [leCum, if_neg hyz] at h2
    simp only [decide_eq_true_eq] at h2
    have hxz : x.date ≠ z.date := by omega
    rw [leCum, if_neg hxz]
    simp only [decide_eq_true_eq]
    omega
  · rw [leCum, if_neg hxy] at h1
    simp only [decide_eq_true_eq] at h1
    have hxz : x.date ≠ z.date := by omega
    rw [leCum, if_neg hxz]
    simp only [decide_eq_true_eq]
    omega
  · rw [leCum, if_neg hxy] at h1
    rw [leCum, if_neg hyz] at h2
    simp only [decide_eq_true_eq] at h1 h2
    have hxz : x.date ≠ z.date := by omega
    rw [leCum, if_neg hxz]
    simp only [decide_eq_true_eq]
    omega

theorem leCum_dates {x y : Row} (h : leCum x y = true) : x.date ≤ y.date := by
  by_cases hd : x.date = y.date
  · omega
  · rw [leCum, if_neg hd] at h
    simp only [decide_eq_true_eq] at h
    omega

theorem resolve_cases {today : Nat} {ad : List Row} {x : Row}
    (hx : x ∈ resolveFutureDated today ad) :
    x ∈ ad ∨ ∃ y ∈ ad, x = retimeRow today y := by
  rw [resolveFutureDated] at hx
  by_cases h1 : (futureRows today ad).isEmpty = true
  · rw [if_pos h1] at hx
    exact Or.inl hx
  · rw [if_neg h1] at hx
    by_cases h2 : (futureNoToday today ad).isEmpty = true
    · rw [if_pos h2] at hx
      exact Or.inl (List.mem_filter.mp hx).1
    · rw [if_neg h2] at hx
      rcases List.mem_append.mp hx with h | h
      · exact Or.inl (List.mem_filter.mp h).1
      · obtain ⟨y, hy, rfl⟩ := List.mem_map.mp h
        exact Or.inr ⟨y, (mem_futureNoToday hy).1, rfl⟩

theorem mem_auctionRows_amount {rs : List CRecord} {y : Row}
    (hy : y ∈ auctionRows rs) :
    ∃ r ∈ rs, y.amountIssued = r.total_accepted := by
  rw [auctionRows] at hy
  obtain ⟨r, hr, rfl⟩ := List.mem_map.mp hy
  exact ⟨r, hr, rfl⟩

theorem resolve_amount_nonneg {today : Nat} {rs : List CRecord} {a : Row}
    (hnn : ∀ r ∈ rs, 0 ≤ r.total_accepted.getD 0)
    (ha : a ∈ resolveFutureDated today (auctionRows rs)) :
    0 ≤ a.amountIssued.getD 0 := by
  rcases resolve_cases ha with h | ⟨y, hy, rfl⟩
  · obtain ⟨r, hr, hamt⟩ := mem_auctionRows_amount h
    rw [hamt]
    exact hnn r hr
  · simp [retimeRow]

theorem block_mono (today : Nat) (rs : List CRecord) (c : String)
    (hnn : ∀ r ∈ rs, 0 ≤ r.total_accepted.getD 0) :
    (cusipBlock today rs (resolveFutureDated today (auctionRows rs))
        c).Pairwise
      (fun a b => a.date ≤ b.date ∧
        ∀ u v, a.totalIssued = some u → b.totalIssued = some v → u ≤ v) := by
  rw [cusipBlock]
  apply cumSum_mono
  · intro x hx
    rw [mem_sortBy] at hx
    obtain ⟨x0, hx0, rfl⟩ := List.mem_map.mp hx
    by_cases hb : beforeFirstIssue x0 = true
    · exact ⟨0, by simp [fixAmount, hb], le_refl 0⟩
    · refine ⟨x0.amountIssued.getD 0, by simp [fixAmount, hb], ?_⟩
      obtain ⟨a, ha, har⟩ := forall₂_mem_right (filled_forall₂ _) x0 hx0
      rw [har.2.2.1]
      rcases (mem_joinRows ha).2.2 with had | hnone
      · exact resolve_amount_nonneg hnn had
      · rw [hnone.1]
        simp
  · exact (pairwise_sortBy leCum_total (fun a b c => leCum_trans) _).imp
      (fun h => leCum_dates h)

/-- Claim C5: for every cusip, `totalIssued` is non-decreasing along
the cusip's output rows taken in ascending date order, `totalIssued`
being the running sum of `amountIssued` within the cusip (src lines
593-599).  Hypothesis: `total_accepted` amounts are non-negative
(currency amounts), otherwise a negative auction amount would make the
running sum decrease. -/
theorem C5_totalIssued_monotone (today : Nat) (rs : List CRecord)
    (p : List Row) (hp : createCusipPanel today rs = Except.ok p)
    (hnn : ∀ r ∈ rs, 0 ≤ r.total_accepted.getD 0)
    (x y : Row) (hx : x ∈ p) (hy : y ∈ p)
    (hcu : x.cusip = y.cusip) (hdt : x.date < y.date) :
    ∃ u v, x.totalIssued = some u ∧ y.totalIssued = some v ∧ u ≤ v := by
  rw [createCusipPanel_ok hp] at hx hy
  obtain ⟨hwkx, x0, hx0, hxe⟩ := mem_buildPanel_elim hx
  obtain ⟨hwky, y0, hy0, hye⟩ := mem_buildPanel_elim hy
  obtain ⟨cx, hcx, hxb⟩ := mem_prePanel_elim hx0
  obtain ⟨cy, hcy, hyb⟩ := mem_prePanel_elim hy0
  have hcc : cx = cy := by
    rw [← block_cusip x0 hxb, ← block_cusip y0 hyb,
      ← vintage_update_cusip hxe, ← vintage_update_cusip hye, hcu]
  subst hcc
  have hxs := (block_all_some x0 hxb).2
  have hys := (block_all_some y0 hyb).2
  obtain ⟨u, hu⟩ := Option.isSome_iff_exists.mp hxs
  obtain ⟨v, hv⟩ := Option.isSome_iff_exists.mp hys
  refine ⟨u, v, by rw [vintage_update_total hxe]; exact hu,
    by rw [vintage_update_total hye]; exact hv, ?_⟩
  have hpw := block_mono today rs cx hnn
  obtain ⟨i, hi⟩ := List.mem_iff_get.mp hxb
  obtain ⟨j, hj⟩ := List.mem_iff_get.mp hyb
  have hdt2 : x0.date < y0.date := by
    rw [← vintage_update_date hxe, ← vintage_update_date hye]
    exact hdt
  rcases lt_trichotomy i j with hij | hij | hij
  · have hr := List.pairwise_iff_get.mp hpw i j hij
    rw [hi, hj] at hr
    exact hr.2 u v hu hv
  · exfalso
    rw [hij, hj] at hi
    rw [hi] at hdt2
    omega
  · exfalso
    have hr := List.pairwise_iff_get.mp hpw j i hij
    rw [hi, hj] at hr
    have := hr.1
    omega

/-- Witness for C5: in the concrete panel `pA`, the day-4 row's total
does not exceed the day-8 row's total. -/
theorem C5_witness :
    ∃ u v, rowA4.totalIssued = some u ∧ rowA8.totalIssued = some v ∧
      u ≤ v :=
  C5_totalIssued_monotone 8 exA pA rfl (by decide) rowA4 rowA8
    (by decide) (by decide) (by decide) (by decide)

/-! ### Claim C6: summation machinery -/

theorem amtSum_cons (x : Row) (l : List Row) :
    amtSum (x :: l) = x.amountIssued.getD 0 + amtSum l := by
  simp [amtSum]

theorem amtSum_append (l1 l2 : List Row) :
    amtSum (l1 ++ l2) = amtSum l1 + amtSum l2 := by
  simp [amtSum]

theorem sum_map_add {α : Type} (K : List α) (f g : α → Int) :
    (K.map (fun k => f k + g k)).sum = (K.map f).sum + (K.map g).sum := by
  induction K with
  | nil => simp
  | cons k K ih =>
    simp only [List.map_cons, List.sum_cons, ih]
    ring

theorem sum_map_zero {α : Type} {K : List α} {f : α → Int}
    (h : ∀ k ∈ K, f k = 0) : (K.map f).sum = 0 := by
  induction K with
  | nil => rfl
  | cons k K ih =>
    simp only [List.map_cons, List.sum_cons,
      h k (List.mem_cons_self k K),
      ih (fun a ha => h a (List.mem_cons_of_mem k ha))]
    ring

theorem sum_map_indicator {K : List Nat} {d0 : Nat} {v : Int}
    (hnd : K.Nodup) (hd : d0 ∈ K) :
    (K.map (fun d => if d0 = d then v else 0)).sum = v := by
  induction K with
  | nil => cases hd
  | cons k K ih =>
    obtain ⟨hk1, hk2⟩ := List.nodup_cons.mp hnd
    rcases List.mem_cons.mp hd with rfl | hd2
    · simp only [List.map_cons, List.sum_cons, if_pos rfl]
      rw [sum_map_zero (fun d hdK =>
        if_neg (fun he => hk1 (by rw [he]; exact hdK)))]
      simp
    · have hne : d0 ≠ k := fun he => hk1 (by rw [← he]; exact hd2)
      simp only [List.map_cons, List.sum_cons, if_neg hne]
      rw [ih hk2 hd2]
      ring

theorem amtSum_flatMap {α : Type} (K : List α) (g : α → List Row) :
    amtSum (K.flatMap g) = (K.map (fun k => amtSum (g k))).sum := by
  induction K with
  | nil => rfl
  | cons k K ih =>
    rw [List.flatMap_cons, amtSum_append, ih, List.map_cons, List.sum_cons]

theorem amtSum_filter_cons {r : Row} {L : List Row} {p : Row → Bool} :
    amtSum ((r :: L).filter p)
      = (if p r = true then r.amountIssued.getD 0 else 0)
        + amtSum (L.filter p) := by
  by_cases h : p r = true
  · rw [List.filter_cons_of_pos h, amtSum_cons, if_pos h]
  · rw [List.filter_cons_of_neg h, if_neg h]
    omega

theorem amtSum_buckets {K : List Nat} {c : String} :
    ∀ {L : List Row}, K.Nodup →
      (∀ r ∈ L, r.cusip = c → r.date ∈ K) →
      (K.map (fun d => amtSum (L.filter (keyB c d)))).sum
        = amtSum (L.filter (fun r => r.cusip == c)) := by
  intro L
  induction L with
  | nil =>
    intro hnd hcov
    simp [amtSum]
  | cons r L ih =>
    intro hnd hcov
    have hcov2 : ∀ q ∈ L, q.cusip = c → q.date ∈ K :=
      fun q hq => hcov q (List.mem_cons_of_mem _ hq)
    have hre : (K.map (fun d => amtSum ((r :: L).filter (keyB c d))))
        = K.map (fun d =>
            (if keyB c d r = true then r.amountIssued.getD 0 else 0)
            + amtSum (L.filter (keyB c d))) :=
      List.map_congr_left (fun d hd => amtSum_filter_cons)
    rw [hre, sum_map_add, ih hnd hcov2, amtSum_filter_cons]
    by_cases hc : r.cusip = c
    · have hdK : r.date ∈ K := hcov r (List.mem_cons_self r L) hc
      have hfun : (fun d => if keyB c d r = true
            then r.amountIssued.getD 0 else 0)
          = (fun d => if r.date = d then r.amountIssued.getD 0 else 0) :=
        funext (fun d => by simp [keyB, hc])
      rw [hfun, sum_map_indicator hnd hdK, if_pos (by simp [hc])]
    · have hz : (K.map (fun d => if keyB c d r = true
            then r.amountIssued.getD 0 else 0)).sum = 0 :=
        sum_map_zero (fun d hd => by simp [keyB, hc])
      rw [hz, if_neg (by simp [hc])]

theorem sum_forall₂_mem {α β : Type} {R : α → β → Prop}
    {f : α → Int} {g : β → Int} :
    ∀ {l : List α} {m : List β}, List.Forall₂ R l m →
      (∀ a ∈ l, ∀ b, R a b → g b = f a) →
      (m.map g).sum = (l.map f).sum := by
  intro l m h
  induction h with
  | nil => intro hfg; rfl
  | cons hab ht ih =>
    intro hfg
    rw [List.map_cons, List.map_cons, List.sum_cons, List.sum_cons,
      ih (fun a ha b hr => hfg a (List.mem_cons_of_mem _ ha) b hr),
      hfg _ (List.mem_cons_self _ _) _ hab]

/-! ### Claim C6: pushing the sum through the pipeline -/

theorem minIssue_le_self {rs : List CRecord} {r : CRecord} (hr : r ∈ rs) :
    ∃ m, minIssue rs r.cusip = some m ∧ m ≤ r.issue_date := by
  rw [minIssue]
  have hmem : r.issue_date
      ∈ (rs.filter (fun x => x.cusip == r.cusip)).map (·.issue_date) :=
    List.mem_map.mpr ⟨r, List.mem_filter.mpr ⟨hr, by simp⟩, rfl⟩
  cases hm : natMin?
      ((rs.filter (fun x => x.cusip == r.cusip)).map (·.issue_date)) with
  | none =>
    exfalso
    have hne : (rs.filter (fun x => x.cusip == r.cusip)).map (·.issue_date)
        ≠ [] := by
      intro hnil
      rw [hnil] at hmem
      cases hmem
    have hsome := natMin?_isSome hne
    rw [hm] at hsome
    cases hsome
  | some m => exact ⟨m, rfl, natMin?_le hm hmem⟩

theorem block_amtSum (today : Nat) (rs : List CRecord) (ad : List Row)
    (c : String)
    (hside : ∀ a ∈ joinRows today rs ad c, a.amountIssued.isSome = true →
       ∃ m, a.firstIssueDate = some m ∧ m ≤ a.date) :
    amtSum (cusipBlock today rs ad c) = amtSum (joinRows today rs ad c) := by
  rw [cusipBlock]
  have h1 : amtSum (cumSum 0 (sortBy leCum
        ((bfill (ffill {} (joinRows today rs ad c))).map fixAmount)))
      = amtSum (sortBy leCum
        ((bfill (ffill {} (joinRows today rs ad c))).map fixAmount)) := by
    rw [amtSum, amtSum]
    exact sum_forall₂ (fun a b hab => by rw [hab]) (cumSum_forall₂ _ _)
  have h2 : amtSum (sortBy leCum
        ((bfill (ffill {} (joinRows today rs ad c))).map fixAmount))
      = amtSum ((bfill (ffill {} (joinRows today rs ad c))).map fixAmount) := by
    rw [amtSum, amtSum]
    exact ((sortBy_perm leCum _).map _).sum_eq
  have h3 : amtSum ((bfill (ffill {} (joinRows today rs ad c))).map fixAmount)
      = amtSum (joinRows today rs ad c) := by
    rw [amtSum, amtSum]
    refine sum_forall₂_mem (fixed_forall₂ _) ?_
    intro a ha b hab
    rw [hab.2.2.2 (fun hsome => hside a ha hsome)]
    rfl
  rw [h1, h2, h3]

theorem amtSum_joinRows (today : Nat) (rs : List CRecord) (ad : List Row)
    (c : String) :
    amtSum (joinRows today rs ad c)
      = ((calendarFor today rs c).map
          (fun d => amtSum (ad.filter (keyB c d)))).sum := by
  rw [joinRows, amtSum_flatMap]
  refine congrArg List.sum (List.map_congr_left ?_)
  intro d hd
  by_cases hms : (ad.filter (keyB c d)).isEmpty = true
  · rw [if_pos hms]
    have hnil : ad.filter (keyB c d) = [] := List.isEmpty_iff.mp hms
    rw [hnil]
    simp [amtSum, emptyRow]
  · rw [if_neg hms]

theorem amtSum_flatMap_zero {α : Type} {K : List α} (g : α → List Row)
    (q : Row → Bool) (hz : ∀ k ∈ K, amtSum ((g k).filter q) = 0) :
    amtSum ((K.flatMap g).filter q) = 0 := by
  induction K with
  | nil => rfl
  | cons k K ih =>
    rw [List.flatMap_cons, List.filter_append, amtSum_append,
      hz k (List.mem_cons_self k K),
      ih (fun a ha => hz a (List.mem_cons_of_mem k ha))]
    omega

theorem amtSum_flatMap_single {α : Type} {K : List α} (g : α → List Row)
    {k0 : α} (q : Row → Bool) (hnd : K.Nodup) (hk : k0 ∈ K)
    (hz : ∀ k ∈ K, k ≠ k0 → amtSum ((g k).filter q) = 0) :
    amtSum ((K.flatMap g).filter q) = amtSum ((g k0).filter q) := by
  induction K with
  | nil => cases hk
  | cons k K ih =>
    obtain ⟨hk1, hk2⟩ := List.nodup_cons.mp hnd
    rw [List.flatMap_cons, List.filter_append, amtSum_append]
    rcases List.mem_cons.mp hk with rfl | hk3
    · rw [amtSum_flatMap_zero g q
        (fun a ha => hz a (List.mem_cons_of_mem _ ha)
          (fun he => hk1 (by rw [← he]; exact ha)))]
      omega
    · rw [hz k (List.mem_cons_self _ _) (fun he => hk1 (by rw [he]; exact hk3)),
        ih hk2 hk3 (fun a ha hne => hz a (List.mem_cons_of_mem _ ha) hne)]
      omega

theorem amtSum_map_preserve {l : List Row} {f : Row → Row}
    (h : ∀ x, (f x).amountIssued = x.amountIssued) :
    amtSum (l.map f) = amtSum l := by
  induction l with
  | nil => rfl
  | cons x l ih =>
    rw [List.map_cons, amtSum_cons, amtSum_cons, ih, h x]

theorem amtSum_filter_drop {P : List Row} {q w : Row → Bool}
    (h : ∀ x ∈ P, q x = true → w x = false → x.amountIssued.getD 0 = 0) :
    amtSum (P.filter (fun x => q x && w x)) = amtSum (P.filter q) := by
  induction P with
  | nil => rfl
  | cons x P ih =>
    have ih2 := ih (fun z hz => h z (List.mem_cons_of_mem _ hz))
    by_cases hq : q x = true
    · by_cases hw : w x = true
      · rw [List.filter_cons_of_pos (by simp [hq, hw]),
          List.filter_cons_of_pos hq, amtSum_cons, amtSum_cons, ih2]
      · rw [List.filter_cons_of_neg (by simp [hq, hw]),
          List.filter_cons_of_pos hq, amtSum_cons, ih2,
          h x (List.mem_cons_self _ _) hq (by simpa using hw)]
        omega
    · rw [List.filter_cons_of_neg (by simp [hq]),
        List.filter_cons_of_neg hq]
      exact ih2

theorem resolve_no_future {today : Nat} {ad : List Row}
    (h : ∀ a ∈ ad, a.date ≤ today) :
    resolveFutureDated today ad = ad := by
  rw [resolveFutureDated, if_pos]
  rw [futureRows, List.isEmpty_iff, List.filter_eq_nil_iff]
  intro a ha
  simp only [decide_eq_true_eq]
  have := h a ha
  omega

theorem auctionRows_dates_le {today : Nat} {rs : List CRecord}
    (h1 : ∀ r ∈ rs, r.issue_date ≤ today) :
    ∀ a ∈ auctionRows rs, a.date ≤ today := by
  intro a ha
  rw [auctionRows] at ha
  obtain ⟨r, hr, rfl⟩ := List.mem_map.mp ha
  exact h1 r hr

theorem block_amount_origin {today : Nat} {rs : List CRecord} {ad : List Row}
    {c : String} {x : Row} (hx : x ∈ cusipBlock today rs ad c) :
    ∃ v, x.amountIssued = some v ∧
      (v = 0 ∨ ∃ a ∈ joinRows today rs ad c,
         a.amountIssued = some v ∧ a.date = x.date) := by
  rw [cusipBlock] at hx
  obtain ⟨x0, hx0, hxr⟩ := forall₂_mem_right (cumSum_forall₂ _ _) x hx
  have hx1 : x0 ∈ (bfill (ffill {} (joinRows today rs ad c))).map fixAmount :=
    mem_sortBy.mp hx0
  obtain ⟨a, ha, har⟩ := forall₂_mem_right (fixed_forall₂ _) x0 hx1
  obtain ⟨v, hv, hcase⟩ := har.2.2.1
  have hax : x.amountIssued = x0.amountIssued :=
    (congrArg Row.amountIssued hxr).trans rfl
  have hdx : x.date = x0.date := (congrArg Row.date hxr).trans rfl
  refine ⟨v, by rw [hax]; exact hv, ?_⟩
  rcases hcase with h0 | hav
  · exact Or.inl h0
  · exact Or.inr ⟨a, ha, hav, by rw [hdx, har.2.1]⟩

theorem prePanel_weekend_zero {today : Nat} {rs : List CRecord}
    (h1 : ∀ r ∈ rs, r.issue_date ≤ today)
    (h2 : ∀ r ∈ rs, weekday r.issue_date < 6) :
    ∀ x ∈ prePanel today rs, decide (weekday x.date < 6) = false →
      x.amountIssued.getD 0 = 0 := by
  intro x hx hwk
  obtain ⟨c, hc, hxb⟩ := mem_prePanel_elim hx
  obtain ⟨v, hv, hcase⟩ := block_amount_origin hxb
  rcases hcase with rfl | ⟨a, ha, hav, had⟩
  · rw [hv]
    rfl
  · exfalso
    simp only [decide_eq_false_iff_not] at hwk
    rcases (mem_joinRows ha).2.2 with haad | hnone
    · rw [resolve_no_future (auctionRows_dates_le h1)] at haad
      rw [auctionRows] at haad
      obtain ⟨r, hr, rfl⟩ := List.mem_map.mp haad
      have hw2 := h2 r hr
      rw [← had] at hwk
      exact hwk hw2
    · rw [hnone.1] at hav
      cases hav

theorem amtSum_map_toRow_filter (rs0 : List CRecord) (c : String) :
    ∀ (rs : List CRecord),
      amtSum ((rs.map (toRow rs0)).filter (fun r => r.cusip == c))
        = ((rs.filter (fun r => r.cusip == c)).map
            (fun r => r.total_accepted.getD 0)).sum := by
  intro rs
  induction rs with
  | nil => rfl
  | cons r rs ih =>
    have hsplit : ((toRow rs0 r).cusip == c) = (r.cusip == c) := rfl
    rw [List.map_cons]
    simp only [List.filter_cons, hsplit]
    by_cases hc : (r.cusip == c) = true
    · rw [if_pos hc, if_pos hc, amtSum_cons, List.map_cons,
        List.sum_cons, ih]
      rfl
    · rw [if_neg hc, if_neg hc]
      exact ih

/-- Claim C6 (counterexample): the conservation round-trip fails as
stated.  Cusip "B" has one source record with `totalAccepted = 200`,
but its only issuance is future-dated (issue day 11 > reference day
8); the future-dated resolution synthesizes a `today` row with
`amountIssued = 0`, so the panel-side sum is 0 while the record-side
sum is 200. -/
theorem C6_conservation_cex :
    amtSum (pB.filter (fun x => x.cusip == "B")) = 0 ∧
    accSum exB "B" = 200 ∧
    amtSum (pB.filter (fun x => x.cusip == "B")) ≠ accSum exB "B" := by
  decide

theorem amtSum_map_filter {l : List Row} {f : Row → Row} {s : Row → Bool}
    (hamt : ∀ x, (f x).amountIssued = x.amountIssued)
    (hs : ∀ x, s (f x) = s x) :
    amtSum ((l.map f).filter s) = amtSum (l.filter s) := by
  induction l with
  | nil => rfl
  | cons x l ih =>
    rw [List.map_cons]
    simp only [List.filter_cons, hs x]
    by_cases hx : s x = true
    · rw [if_pos hx, if_pos hx, amtSum_cons, amtSum_cons, ih, hamt]
    · rw [if_neg hx, if_neg hx]
      exact ih

theorem amtSum_setVintage_filter (P : List Row) (s : Row → Bool)
    (hs : ∀ (x : Row) (v : Option Int), s { x with vintage := v } = s x) :
    amtSum ((setVintage P).filter s) = amtSum (P.filter s) := by
  rw [setVintage]
  exact amtSum_map_filter (fun x => rfl) (fun x => hs x _)

theorem joinRows_side {today : Nat} {rs : List CRecord} {c : String} :
    ∀ a ∈ joinRows today rs (auctionRows rs) c,
      a.amountIssued.isSome = true →
      ∃ m, a.firstIssueDate = some m ∧ m ≤ a.date := by
  intro a ha hsome
  rcases (mem_joinRows ha).2.2 with haad | hnone
  · rw [auctionRows] at haad
    obtain ⟨r, hr, rfl⟩ := List.mem_map.mp haad
    obtain ⟨m, hm, hle⟩ := minIssue_le_self hr
    exact ⟨m, hm, hle⟩
  · rw [hnone.1] at hsome
    cases hsome

theorem auctionRows_coverage {today : Nat} {rs : List CRecord} {c : String}
    (h3 : ∀ r ∈ rs, r.cusip = c → r.issue_date ∈ calendarFor today rs c) :
    ∀ a ∈ auctionRows rs, a.cusip = c → a.date ∈ calendarFor today rs c := by
  intro a ha hac
  rw [auctionRows] at ha
  obtain ⟨r, hr, rfl⟩ := List.mem_map.mp ha
  exact h3 r hr hac

theorem block_filter_self {today : Nat} {rs : List CRecord} {ad : List Row}
    {c : String} :
    (cusipBlock today rs ad c).filter (fun x => x.cusip == c)
      = cusipBlock today rs ad c :=
  List.filter_eq_self.mpr (fun a ha => by simp [block_cusip a ha])

theorem block_filter_other {today : Nat} {rs : List CRecord} {ad : List Row}
    {c k : String} (hne : k ≠ c) :
    amtSum ((cusipBlock today rs ad k).filter (fun x => x.cusip == c))
      = 0 := by
  have hnil : (cusipBlock today rs ad k).filter (fun x => x.cusip == c)
      = [] := by
    refine List.filter_eq_nil_iff.mpr (fun a ha hpa => hne ?_)
    have hak := block_cusip a ha
    have hac : a.cusip = c := by simpa using hpa
    rw [← hak, hac]
  rw [hnil]
  rfl

theorem resolve_filter_key {today : Nat} {ad : List Row} {c : String}
    (h : ∀ a ∈ ad, a.cusip = c → a.date ≤ today) (d : Nat) :
    (resolveFutureDated today ad).filter (keyB c d)
      = ad.filter (keyB c d) := by
  have hbase : (ad.filter (fun r => decide (r.date ≤ today))).filter
        (keyB c d)
      = ad.filter (keyB c d) := by
    rw [List.filter_filter]
    refine List.filter_congr (fun a ha => ?_)
    by_cases hk : keyB c d a = true
    · have hac : a.cusip = c := (keyB_iff.mp hk).1
      have hle := h a ha hac
      simp [hk, hle]
    · have hkf : keyB c d a = false := Bool.eq_false_iff.mpr hk
      rw [hkf]
      rfl
  rw [resolveFutureDated]
  by_cases h1 : (futureRows today ad).isEmpty = true
  · rw [if_pos h1]
  · rw [if_neg h1]
    by_cases h2 : (futureNoToday today ad).isEmpty = true
    · rw [if_pos h2]
      exact hbase
    · rw [if_neg h2, List.filter_append, hbase]
      have hnil : ((futureNoToday today ad).map (retimeRow today)).filter
          (keyB c d) = [] := by
        refine List.filter_eq_nil_iff.mpr (fun x hxm hkx => ?_)
        obtain ⟨y, hy, rfl⟩ := List.mem_map.mp hxm
        have hyc : y.cusip = c := (keyB_iff.mp hkx).1
        have hyle := h y (mem_futureNoToday hy).1 hyc
        have hyf := (mem_futureNoToday hy).2.1
        omega
      rw [hnil, List.append_nil]

theorem joinRows_resolve {today : Nat} {rs : List CRecord} {c : String}
    (h : ∀ a ∈ auctionRows rs, a.cusip = c → a.date ≤ today) :
    joinRows today rs (resolveFutureDated today (auctionRows rs)) c
      = joinRows today rs (auctionRows rs) c := by
  simp only [joinRows]
  congr 1
  funext d
  rw [resolve_filter_key h d]

theorem prePanel_weekend_zero_cusip {today : Nat} {rs : List CRecord}
    {c : String}
    (h2 : ∀ r ∈ rs, r.cusip = c → weekday r.issue_date < 6) :
    ∀ x ∈ prePanel today rs, x.cusip = c →
      decide (weekday x.date < 6) = false →
      x.amountIssued.getD 0 = 0 := by
  intro x hx hxc hwk
  obtain ⟨k, hk, hxb⟩ := mem_prePanel_elim hx
  obtain ⟨v, hv, hcase⟩ := block_amount_origin hxb
  rcases hcase with rfl | ⟨a, ha, hav, had⟩
  · rw [hv]
    rfl
  · have hxk : x.cusip = k := block_cusip x hxb
    have hac : a.cusip = c := by
      rw [(mem_joinRows ha).1, ← hxk, hxc]
    rcases (mem_joinRows ha).2.2 with haad | hnone
    · rcases resolve_cases haad with hin | ⟨y, hy, hrt⟩
      · exfalso
        simp only [decide_eq_false_iff_not] at hwk
        rw [auctionRows] at hin
        obtain ⟨r, hr, rfl⟩ := List.mem_map.mp hin
        have hw2 := h2 r hr hac
        rw [← had] at hwk
        exact hwk hw2
      · subst hrt
        have h0 : (some (0 : Int)) = some v := hav
        rw [hv, ← Option.some.inj h0]
        rfl
    · rw [hnone.1] at hav
      cases hav

/-- Claim C6 (amended): the conservation round-trip holds for a cusip
whose records all settle on or before the reference date, on weekdays,
and inside the cusip's calendar span `[min announcement,
min(maturity, today)]`: the sum of `amountIssued` over that cusip's
panel rows equals the sum of `total_accepted` (nulls as 0) over its
source records, with no condition on the other cusips' records.
Without these conditions the sum is lost: a future-dated record
contributes 0 via the synthesized `today` row, a weekend settlement is
dropped by the weekend filter, and a settlement outside the calendar
span never joins. -/
theorem C6_conservation_amended (today : Nat) (rs : List CRecord)
    (p : List Row) (hp : createCusipPanel today rs = Except.ok p)
    (c : String) (hc : c ∈ cusips rs)
    (h1 : ∀ r ∈ rs, r.cusip = c → r.issue_date ≤ today)
    (h2 : ∀ r ∈ rs, r.cusip = c → weekday r.issue_date < 6)
    (h3 : ∀ r ∈ rs, r.cusip = c → r.issue_date ∈ calendarFor today rs c) :
    amtSum (p.filter (fun x => x.cusip == c)) = accSum rs c := by
  have hle : ∀ a ∈ auctionRows rs, a.cusip = c → a.date ≤ today := by
    intro a ha hac
    rw [auctionRows] at ha
    obtain ⟨r, hr, rfl⟩ := List.mem_map.mp ha
    exact h1 r hr hac
  have hcb : cusipBlock today rs (resolveFutureDated today (auctionRows rs)) c
      = cusipBlock today rs (auctionRows rs) c := by
    rw [cusipBlock, cusipBlock, joinRows_resolve hle]
  rw [createCusipPanel_ok hp, buildPanel]
  have hA : amtSum ((sortBy finalSortLe
        ((setVintage (prePanel today rs)).filter
          (fun x => decide (weekday x.date < 6)))).filter
        (fun x => x.cusip == c))
      = amtSum (((setVintage (prePanel today rs)).filter
          (fun x => decide (weekday x.date < 6))).filter
        (fun x => x.cusip == c)) := by
    rw [amtSum, amtSum]
    exact (((sortBy_perm finalSortLe _).filter _).map _).sum_eq
  rw [hA]
  have hB : (((setVintage (prePanel today rs)).filter
        (fun x => decide (weekday x.date < 6))).filter
        (fun x => x.cusip == c))
      = ((setVintage (prePanel today rs)).filter
        (fun x => (x.cusip == c) && decide (weekday x.date < 6))) := by
    rw [List.filter_filter]
  rw [hB,
    amtSum_setVintage_filter (prePanel today rs)
      (fun x => (x.cusip == c) && decide (weekday x.date < 6))
      (fun x v => rfl)]
  have hdrop : ∀ x ∈ prePanel today rs, (fun x : Row => x.cusip == c) x = true →
      (fun x : Row => decide (weekday x.date < 6)) x = false →
      x.amountIssued.getD 0 = 0 :=
    fun x hx hq hw =>
      prePanel_weekend_zero_cusip h2 x hx (by simpa using hq) hw
  rw [amtSum_filter_drop hdrop]
  simp only [prePanel]
  rw [amtSum_flatMap_single
      (cusipBlock today rs (resolveFutureDated today (auctionRows rs))) _
      nodup_cusips hc (fun k hk hne => block_filter_other hne),
    block_filter_self, hcb,
    block_amtSum today rs (auctionRows rs) c joinRows_side,
    amtSum_joinRows,
    amtSum_buckets nodup_calendarFor (auctionRows_coverage h3),
    auctionRows, amtSum_map_toRow_filter rs c rs]
  rfl

/-- Witness for the amended C6 at the concrete already-issued bill
`exA`: the panel sum equals the record sum 100. -/
theorem C6_witness :
    amtSum (pA.filter (fun x => x.cusip == "A")) = accSum exA "A" :=
  C6_conservation_amended 8 exA pA rfl "A" (by decide) (by decide)
    (by decide) (by decide)

/-! ### Claim C3: future-dated resolution -/

theorem todayCusips_spec {today : Nat} {ad : List Row} {c : String} :
    c ∈ todayCusips today ad ↔ ∃ x ∈ ad, x.date = today ∧ x.cusip = c := by
  rw [todayCusips]
  constructor
  · intro h
    obtain ⟨x, hx, rfl⟩ := List.mem_map.mp h
    obtain ⟨hx1, hx2⟩ := List.mem_filter.mp hx
    exact ⟨x, hx1, by simpa using hx2, rfl⟩
  · rintro ⟨x, hx, hd, rfl⟩
    exact List.mem_map.mpr ⟨x, List.mem_filter.mpr ⟨hx, by simp [hd]⟩, rfl⟩

theorem futureNoToday_filter_cusip {today : Nat} {ad : List Row} {c : String}
    (hnot : ad.filter (fun r => r.cusip == c && r.date == today) = []) :
    (futureNoToday today ad).filter (fun r => r.cusip == c)
      = ad.filter (fun r => r.cusip == c && decide (today < r.date)) := by
  have hcnot : c ∉ todayCusips today ad := by
    intro hmem
    obtain ⟨x, hx, hd, hcx⟩ := todayCusips_spec.mp hmem
    have : x ∈ ad.filter (fun r => r.cusip == c && r.date == today) :=
      List.mem_filter.mpr ⟨hx, by simp [hcx, hd]⟩
    rw [hnot] at this
    cases this
  rw [futureNoToday, futureRows, List.filter_filter, List.filter_filter]
  refine List.filter_congr (fun r hr => ?_)
  by_cases hcr : (r.cusip == c) = true
  · have hcr2 : r.cusip = c := by simpa using hcr
    have hmem2 : r.cusip ∉ todayCusips today ad := by
      rw [hcr2]
      exact hcnot
    rw [hcr]
    simp [hmem2]
  · have hcr2 : (r.cusip == c) = false := by
      rw [Bool.eq_false_iff]
      exact hcr
    rw [hcr2]
    simp

theorem kept_filter_key_nil {today : Nat} {ad : List Row} {c : String}
    (hnot : ad.filter (fun r => r.cusip == c && r.date == today) = []) :
    (ad.filter (fun r => decide (r.date ≤ today))).filter (keyB c today)
      = [] := by
  refine List.filter_eq_nil_iff.mpr (fun a ha hpa => ?_)
  obtain ⟨hac, had⟩ := keyB_iff.mp hpa
  have haad := (List.mem_filter.mp ha).1
  have : a ∈ ad.filter (fun r => r.cusip == c && r.date == today) :=
    List.mem_filter.mpr ⟨haad, by simp [hac, had]⟩
  rw [hnot] at this
  cases this

/-- Claim C3 (counterexample): the "exactly one PanelRow is
synthesized" part fails when a cusip has more than one future-dated
record.  Cusip "D" has two future-dated records (issue days 11 and 12
past the reference date 8) and no record dated exactly 8, and the
resolution synthesizes one `today` row per future record: two
joinable rows keyed `("D", 8)`, not one. -/
theorem C3_multi_future_cex :
    todayCusips 8 (auctionRows exD) = []
    ∧ (futureRows 8 (auctionRows exD)).length = 2
    ∧ ((resolveFutureDated 8 (auctionRows exD)).filter
        (keyB "D" 8)).length = 2 :=
  ⟨by decide, by decide, by decide⟩

/-- Claim C3 (amended): future-dated resolution (src lines 525-545).
First, every auction row dated after `today` is excluded from the
joinable rows, so it never enters the direct `(cusip, date)` join.
Second, for a cusip with exactly one future-dated record and no
record dated exactly `today`, exactly one joinable row is synthesized
at `date = today` — with several future-dated records the code
synthesizes one row per record, as the counterexample shows — and any
such row carries `amountIssued = 0`, `issuanceType = null` and
`unscheduledReopeningDate = null`.  Third, if a `today`-dated record
already exists for the cusip, the cusip's joinable rows are exactly
its records dated at most `today`: the future record is dropped
entirely. -/
theorem C3_future_dated_resolution (today : Nat) (ad : List Row)
    (c : String) :
    (∀ x ∈ resolveFutureDated today ad, x.date ≤ today)
    ∧ ((ad.filter (fun r => r.cusip == c && decide (today < r.date))).length
          = 1 →
       ad.filter (fun r => r.cusip == c && r.date == today) = [] →
       ((resolveFutureDated today ad).filter (keyB c today)).length = 1
       ∧ ∀ x ∈ resolveFutureDated today ad, x.cusip = c → x.date = today →
           x.amountIssued = some 0 ∧ x.issuanceType = none ∧
           x.unscheduledReopeningDate = none)
    ∧ ((∃ x ∈ ad, x.cusip = c ∧ x.date = today) →
       (resolveFutureDated today ad).filter (fun r => r.cusip == c)
         = ad.filter (fun r => r.cusip == c && decide (r.date ≤ today))) := by
  refine ⟨?_, ?_, ?_⟩
  · -- no future date survives
    intro x hx
    rw [resolveFutureDated] at hx
    by_cases h1 : (futureRows today ad).isEmpty = true
    · rw [if_pos h1] at hx
      by_contra hgt
      have hxf : x ∈ futureRows today ad := by
        rw [futureRows]
        exact List.mem_filter.mpr ⟨hx, by simp; omega⟩
      rw [List.isEmpty_iff.mp h1] at hxf
      cases hxf
    · rw [if_neg h1] at hx
      by_cases h2 : (futureNoToday today ad).isEmpty = true
      · rw [if_pos h2] at hx
        have := (List.mem_filter.mp hx).2
        simpa using this
      · rw [if_neg h2] at hx
        rcases List.mem_append.mp hx with h | h
        · have := (List.mem_filter.mp h).2
          simpa using this
        · obtain ⟨y, hy, rfl⟩ := List.mem_map.mp h
          exact le_refl today
  · -- synthesis for a cusip with one future record and no today record
    intro hone hnot
    have hfc := futureNoToday_filter_cusip hnot
    have hfutne : (futureRows today ad).isEmpty = false := by
      rw [Bool.eq_false_iff]
      intro hemp
      have hnil := List.isEmpty_iff.mp hemp
      rw [futureRows] at hnil
      have : ad.filter (fun r => r.cusip == c && decide (today < r.date))
          = [] := by
        refine List.filter_eq_nil_iff.mpr (fun a ha hpa => ?_)
        have hf := List.filter_eq_nil_iff.mp hnil a ha
        simp at hpa hf
        omega
      rw [this] at hone
      cases hone
    have hfntne : (futureNoToday today ad).isEmpty = false := by
      rw [Bool.eq_false_iff]
      intro hemp
      have hnil := List.isEmpty_iff.mp hemp
      rw [hnil] at hfc
      rw [← hfc] at hone
      cases hone
    have hsplit : resolveFutureDated today ad
        = ad.filter (fun r => decide (r.date ≤ today)) ++
            (futureNoToday today ad).map (retimeRow today) := by
      rw [resolveFutureDated, if_neg (by rw [hfutne]; simp),
        if_neg (by rw [hfntne]; simp)]
    constructor
    · rw [hsplit, List.filter_append, List.length_append,
        kept_filter_key_nil hnot]
      have hmapf : ((futureNoToday today ad).map (retimeRow today)).filter
            (keyB c today)
          = ((futureNoToday today ad).filter
              (fun r => r.cusip == c)).map (retimeRow today) := by
        rw [List.filter_map]
        refine congrArg _ (List.filter_congr (fun r hr => ?_))
        simp [keyB, retimeRow, Function.comp]
      rw [hmapf, List.length_map, hfc, hone]
      rfl
    · intro x hx hxc hxd
      rw [hsplit] at hx
      rcases List.mem_append.mp hx with h | h
      · exfalso
        have haad := (List.mem_filter.mp h).1
        have : x ∈ ad.filter (fun r => r.cusip == c && r.date == today) :=
          List.mem_filter.mpr ⟨haad, by simp [hxc, hxd]⟩
        rw [hnot] at this
        cases this
      · obtain ⟨y, hy, rfl⟩ := List.mem_map.mp h
        exact ⟨rfl, rfl, rfl⟩
  · -- a today record exists: the future record is dropped entirely
    rintro ⟨x, hx, hxc, hxd⟩
    have hctoday : c ∈ todayCusips today ad :=
      todayCusips_spec.mpr ⟨x, hx, hxd, hxc⟩
    rw [resolveFutureDated]
    by_cases h1 : (futureRows today ad).isEmpty = true
    · rw [if_pos h1]
      have hall : ∀ a ∈ ad, a.date ≤ today := by
        intro a ha
        by_contra hgt
        have : a ∈ futureRows today ad := by
          rw [futureRows]
          exact List.mem_filter.mpr ⟨ha, by simp; omega⟩
        rw [List.isEmpty_iff.mp h1] at this
        cases this
      refine List.filter_congr (fun a ha => ?_)
      by_cases hac : (a.cusip == c) = true
      · rw [hac]
        simp [hall a ha]
      · have : (a.cusip == c) = false := by
          rw [Bool.eq_false_iff]
          exact hac
        rw [this]
        simp
    · rw [if_neg h1]
      have hfnt_c_nil : (futureNoToday today ad).filter
          (fun r => r.cusip == c) = [] := by
        refine List.filter_eq_nil_iff.mpr (fun a ha hpa => ?_)
        have hcont := (mem_futureNoToday ha).2.2
        have hac : a.cusip = c := by simpa using hpa
        rw [List.contains, Bool.eq_false_iff] at hcont
        exact hcont (List.elem_iff.mpr (by rw [hac]; exact hctoday))
      by_cases h2 : (futureNoToday today ad).isEmpty = true
      · rw [if_pos h2, List.filter_filter]
      · rw [if_neg h2, List.filter_append, List.filter_filter]
        have hmapnil : ((futureNoToday today ad).map
              (retimeRow today)).filter (fun r => r.cusip == c) = [] := by
          rw [List.filter_map]
          have : (futureNoToday today ad).filter
              ((fun r : Row => r.cusip == c) ∘ retimeRow today) = [] := by
            rw [List.filter_congr
              (fun r hr => (rfl :
                ((fun r : Row => r.cusip == c) ∘ retimeRow today) r
                  = (r.cusip == c)))]
            exact hfnt_c_nil
          rw [this]
          rfl
        rw [hmapnil, List.append_nil]

/-- Witness for C3: cusip "B" has one future-dated record (day 11 >
reference day 8) and no day-8 record, so exactly one joinable row is
synthesized at day 8. -/
theorem C3_witness :
    ((resolveFutureDated 8 (auctionRows exB)).filter (keyB "B" 8)).length
      = 1 :=
  ((C3_future_dated_resolution 8 (auctionRows exB) "B").2.1
    (by decide) (by decide)).1

/-! ### Claim C2: the dense descending rank at Finset level -/

theorem countAbove_lt_card {S : Finset ℕ} {f : ℕ} (hf : f ∈ S) :
    countAbove S f < S.card := by
  rw [countAbove]
  have hsub : S.filter (fun g => f < g) ⊆ S.erase f := by
    intro g hg
    rw [Finset.mem_filter] at hg
    rw [Finset.mem_erase]
    refine ⟨?_, hg.1⟩
    have := hg.2
    omega
  have h1 := Finset.card_le_card hsub
  have h2 := Finset.card_erase_of_mem hf
  have h3 : 0 < S.card := Finset.card_pos.mpr ⟨f, hf⟩
  omega

theorem countAbove_strictAnti {S : Finset ℕ} {f g : ℕ}
    (hg : g ∈ S) (hfg : f < g) :
    countAbove S g < countAbove S f := by
  rw [countAbove, countAbove]
  apply Finset.card_lt_card
  have hsub : S.filter (fun h => g < h) ⊆ S.filter (fun h => f < h) := by
    intro h hh
    rw [Finset.mem_filter] at hh ⊢
    refine ⟨hh.1, ?_⟩
    have := hh.2
    omega
  rw [Finset.ssubset_iff_of_subset hsub]
  refine ⟨g, ?_, ?_⟩
  · rw [Finset.mem_filter]
    exact ⟨hg, hfg⟩
  · rw [Finset.mem_filter]
    rintro ⟨-, hgg⟩
    omega

theorem countAbove_surj : ∀ (n : ℕ) (S : Finset ℕ), S.card = n →
    ∀ j, j < n → ∃ f ∈ S, countAbove S f = j := by
  intro n
  induction n with
  | zero =>
    intro S hS j hj
    omega
  | succ n ih =>
    intro S hS j hj
    have hne : S.Nonempty := by
      rw [← Finset.card_pos, hS]
      omega
    have hMS : S.max' hne ∈ S := S.max'_mem hne
    cases j with
    | zero =>
      refine ⟨S.max' hne, hMS, ?_⟩
      rw [countAbove, Finset.card_eq_zero, Finset.filter_eq_empty_iff]
      intro g hg
      have := S.le_max' g hg
      omega
    | succ j =>
      have hcard : (S.erase (S.max' hne)).card = n := by
        rw [Finset.card_erase_of_mem hMS, hS]
        omega
      obtain ⟨f, hf, hcount⟩ := ih (S.erase (S.max' hne)) hcard j (by omega)
      have hfS : f ∈ S := Finset.mem_of_mem_erase hf
      have hfM : f ≠ S.max' hne := Finset.ne_of_mem_erase hf
      have hfltM : f < S.max' hne :=
        lt_of_le_of_ne (S.le_max' f hfS) hfM
      refine ⟨f, hfS, ?_⟩
      have hins : S.filter (fun g => f < g)
          = insert (S.max' hne)
              ((S.erase (S.max' hne)).filter (fun g => f < g)) := by
        ext g
        simp only [Finset.mem_filter, Finset.mem_insert, Finset.mem_erase]
        constructor
        · rintro ⟨hgS, hfg⟩
          by_cases hgM : g = S.max' hne
          · exact Or.inl hgM
          · exact Or.inr ⟨⟨hgM, hgS⟩, hfg⟩
        · rintro (rfl | ⟨⟨hgM, hgS⟩, hfg⟩)
          · exact ⟨hMS, hfltM⟩
          · exact ⟨hgS, hfg⟩
      rw [countAbove, hins, Finset.card_insert_of_not_mem (by
        simp only [Finset.mem_filter, Finset.mem_erase]
        rintro ⟨⟨hne2, -⟩, -⟩
        exact hne2 rfl)]
      rw [countAbove] at hcount
      omega

theorem denseAbove_eq_countAbove (l : List Nat) (f : Nat) :
    denseAbove l f = countAbove l.toFinset f := by
  rw [denseAbove, countAbove, ← List.card_toFinset, List.toFinset_filter]
  congr 1
  exact Finset.filter_congr (fun x hx => by simp)

/-! ### Claim C2: transporting peer groups to the output panel -/

theorem groupFids_congr {P : List Row} {x y : Row} (h : gkey y = gkey x) :
    groupFids P y = groupFids P x := by
  rw [groupFids, groupFids]
  congr 1
  refine List.filter_congr (fun z hz => ?_)
  rw [h]

theorem hasWhenIssued_congr {P : List Row} {x y : Row}
    (h : gkey y = gkey x) :
    hasWhenIssued P y = hasWhenIssued P x := by
  rw [hasWhenIssued, hasWhenIssued, h]

theorem mem_buildPanel_vin {today : Nat} {rs : List CRecord} {x : Row}
    (hx : x ∈ buildPanel today rs) :
    decide (weekday x.date < 6) = true ∧
    ∃ x0 ∈ prePanel today rs, x = vinMap (prePanel today rs) x0 := by
  rw [buildPanel, mem_sortBy, List.mem_filter] at hx
  obtain ⟨h1, h2⟩ := hx
  rw [setVintage, List.mem_map] at h1
  obtain ⟨x0, hx0, rfl⟩ := h1
  exact ⟨h2, x0, hx0, rfl⟩

theorem panel_group_perm (today : Nat) (rs : List CRecord) (x : Row)
    (hwk : decide (weekday x.date < 6) = true) :
    ((buildPanel today rs).filter
        (fun y => decide (gkey y = gkey x))).Perm
      (((prePanel today rs).filter
        (fun y => decide (gkey y = gkey x))).map
          (vinMap (prePanel today rs))) := by
  rw [buildPanel]
  have h1 : ((sortBy finalSortLe
        ((setVintage (prePanel today rs)).filter
          (fun z => decide (weekday z.date < 6)))).filter
        (fun y => decide (gkey y = gkey x))).Perm
      (((setVintage (prePanel today rs)).filter
          (fun z => decide (weekday z.date < 6))).filter
        (fun y => decide (gkey y = gkey x))) :=
    (sortBy_perm _ _).filter _
  have h2 : (((setVintage (prePanel today rs)).filter
        (fun z => decide (weekday z.date < 6))).filter
        (fun y => decide (gkey y = gkey x)))
      = ((prePanel today rs).filter
          (fun y => decide (gkey y = gkey x))).map
            (vinMap (prePanel today rs)) := by
    rw [List.filter_filter]
    have h3 : (setVintage (prePanel today rs)).filter
          (fun a => decide (gkey a = gkey x)
            && decide (weekday a.date < 6))
        = (setVintage (prePanel today rs)).filter
          (fun a => decide (gkey a = gkey x)) := by
      refine List.filter_congr (fun a ha => ?_)
      by_cases hga : decide (gkey a = gkey x) = true
      · have hgeq : gkey a = gkey x := of_decide_eq_true hga
        have hda : a.date = x.date := congrArg (fun t => t.1) hgeq
        rw [hga, hda, hwk]
        rfl
      · have hga2 : decide (gkey a = gkey x) = false := by
          rw [Bool.eq_false_iff]
          exact hga
        rw [hga2]
        simp
    rw [h3, setVintage, List.filter_map]
    refine congrArg _ (List.filter_congr (fun a ha => rfl))
  exact h1.trans (h2 ▸ List.Perm.refl _)

theorem panel_group_fids (today : Nat) (rs : List CRecord) (x : Row)
    (hwk : decide (weekday x.date < 6) = true) :
    (groupFids (buildPanel today rs) x).toFinset
      = (groupFids (prePanel today rs) x).toFinset ∧
    hasWhenIssued (buildPanel today rs) x
      = hasWhenIssued (prePanel today rs) x := by
  have hperm := panel_group_perm today rs x hwk
  constructor
  · rw [groupFids, groupFids]
    have hp2 := hperm.filterMap (fun y => y.firstIssueDate)
    rw [List.filterMap_map] at hp2
    have hcomp : ((fun y : Row => y.firstIssueDate)
          ∘ vinMap (prePanel today rs))
        = (fun y : Row => y.firstIssueDate) := funext (fun y => rfl)
    rw [hcomp] at hp2
    exact List.toFinset_eq_of_perm _ _ hp2
  · rw [hasWhenIssued, hasWhenIssued, Bool.eq_iff_iff,
      List.any_eq_true, List.any_eq_true]
    constructor
    · rintro ⟨y, hy, hpy⟩
      have hy2 := hperm.mem_iff.mp hy
      obtain ⟨y0, hy0, rfl⟩ := List.mem_map.mp hy2
      exact ⟨y0, hy0, hpy⟩
    · rintro ⟨y0, hy0, hpy⟩
      refine ⟨vinMap (prePanel today rs) y0,
        hperm.mem_iff.mpr (List.mem_map.mpr ⟨y0, hy0, rfl⟩), hpy⟩

theorem panel_vintage_formula (today : Nat) (rs : List CRecord) (x : Row)
    (hx : x ∈ buildPanel today rs) (f : Nat)
    (hf : x.firstIssueDate = some f) :
    x.vintage = some ((denseAbove (groupFids (buildPanel today rs) x) f : Int)
      - (if hasWhenIssued (buildPanel today rs) x then 1 else 0)) := by
  obtain ⟨hwk, x0, hx0, hxe⟩ := mem_buildPanel_vin hx
  have hf0 : x0.firstIssueDate = some f := by
    rw [hxe] at hf
    exact hf
  have hform : x.vintage
      = some ((denseAbove (groupFids (prePanel today rs) x0) f : Int)
        - (if hasWhenIssued (prePanel today rs) x0 then 1 else 0)) := by
    rw [hxe]
    show (vinMap (prePanel today rs) x0).vintage = _
    rw [vinMap]
    show x0.firstIssueDate.map _ = _
    rw [hf0]
    rfl
  have hgk : gkey x = gkey x0 := by
    rw [hxe]
    rfl
  obtain ⟨hfid, hwi⟩ := panel_group_fids today rs x hwk
  rw [hform, hwi, hasWhenIssued_congr (P := prePanel today rs) hgk,
    denseAbove_eq_countAbove, denseAbove_eq_countAbove, hfid,
    groupFids_congr (P := prePanel today rs) hgk]

/-- Claim C2: within each (date, securityType, TIPS, floatingRate,
tenor) peer group of the output panel, `vintage` is the 0-based dense
rank of the row's `firstIssueDate` in descending order (the number of
distinct strictly larger `firstIssueDate` values in the group, ties
sharing a rank), decremented by one for every member when the group
contains a when-issued row (`date < firstIssueDate`); and in a group
with no when-issued member all of whose members carry a
`firstIssueDate`, the vintages form a dense `0..k-1` ranking by
`firstIssueDate` descending, `k` being the number of distinct
`firstIssueDate` values of the group. -/
theorem C2_vintage_dense_rank (today : Nat) (rs : List CRecord)
    (p : List Row) (hp : createCusipPanel today rs = Except.ok p)
    (x : Row) (hx : x ∈ p) (f : Nat) (hf : x.firstIssueDate = some f) :
    x.vintage = some ((denseAbove (groupFids p x) f : Int) -
        (if hasWhenIssued p x then 1 else 0))
    ∧ (hasWhenIssued p x = false →
       ((∀ y ∈ p, gkey y = gkey x → ∀ g : Nat, y.firstIssueDate = some g →
          ∃ j : Nat, j < (groupFids p x).toFinset.card ∧
            y.vintage = some (j : Int))
        ∧ (∀ j : Nat, j < (groupFids p x).toFinset.card →
          ∃ y ∈ p, gkey y = gkey x ∧ y.vintage = some (j : Int))
        ∧ (∀ y z : Row, y ∈ p → z ∈ p → gkey y = gkey x →
          gkey z = gkey x → ∀ g h : Nat, y.firstIssueDate = some g →
          z.firstIssueDate = some h → g < h →
          ∃ a b : Int, y.vintage = some a ∧ z.vintage = some b ∧
            b < a))) := by
  have hpb := createCusipPanel_ok hp
  subst hpb
  refine ⟨panel_vintage_formula today rs x hx f hf, ?_⟩
  intro hnw
  have hmem_formula : ∀ y ∈ buildPanel today rs, gkey y = gkey x →
      ∀ g : Nat, y.firstIssueDate = some g →
      y.vintage = some ((countAbove
        (groupFids (buildPanel today rs) x).toFinset g : Int)) := by
    intro y hy hgy g hgf
    have h1 := panel_vintage_formula today rs y hy g hgf
    rw [groupFids_congr hgy, hasWhenIssued_congr hgy, hnw,
      denseAbove_eq_countAbove] at h1
    simpa using h1
  have hginS : ∀ y ∈ buildPanel today rs, gkey y = gkey x →
      ∀ g : Nat, y.firstIssueDate = some g →
      g ∈ (groupFids (buildPanel today rs) x).toFinset := by
    intro y hy hgy g hgf
    rw [List.mem_toFinset, groupFids]
    refine List.mem_filterMap.mpr ⟨y, ?_, hgf⟩
    exact List.mem_filter.mpr ⟨hy, by rw [hgy]; simp⟩
  refine ⟨?_, ?_, ?_⟩
  · intro y hy hgy g hgf
    exact ⟨countAbove (groupFids (buildPanel today rs) x).toFinset g,
      countAbove_lt_card (hginS y hy hgy g hgf),
      hmem_formula y hy hgy g hgf⟩
  · intro j hj
    obtain ⟨g, hgS, hgc⟩ := countAbove_surj
      ((groupFids (buildPanel today rs) x).toFinset.card)
      ((groupFids (buildPanel today rs) x).toFinset) rfl j hj
    have hg2 := List.mem_toFinset.mp hgS
    rw [groupFids] at hg2
    obtain ⟨y, hy2, hyf⟩ := List.mem_filterMap.mp hg2
    obtain ⟨hyp, hypred⟩ := List.mem_filter.mp hy2
    have hgy : gkey y = gkey x := of_decide_eq_true hypred
    refine ⟨y, hyp, hgy, ?_⟩
    rw [hmem_formula y hyp hgy g hyf, hgc]
  · intro y z hy hz hgy hgz g h hgf hhf hlt
    refine ⟨_, _, hmem_formula y hy hgy g hgf,
      hmem_formula z hz hgz h hhf, ?_⟩
    have hhS := hginS z hz hgz h hhf
    exact_mod_cast countAbove_strictAnti hhS hlt

/-- Witness for C2: the issuance-day row of the `exA` panel is its own
peer group with no when-issued member, so its vintage is the dense
rank 0. -/
theorem C2_witness : rowA7.vintage = some 0 := by
  have h := (C2_vintage_dense_rank 8 exA pA rfl rowA7 (by decide) 7
    (by decide)).1
  rw [h]
  decide
